import Mathlib

/-!
Verification of core algorithms of pg_rocket, a PostgreSQL subset-extraction
tool.  The Go sources are shallowly embedded: maps become association lists
or functions, `interface{}` values become an inductive `Value` type, SQL
strings are built with the same concatenations the Go code performs, and the
iteration structure of every loop is kept.

Embedded components:
  * `internal/graph/topo.go`        : `TopologicalSort` (Kahn's algorithm)
  * `internal/graph` (BuildGraph)   : `DetectMultiTableCycles` (3-colour DFS)
  * `internal/extractor/traversal`  : `processRows` (row processor)
  * `internal/db/explain.go`        : `DetectBaseTable` (read-only guard)
  * `internal/output/db_executor`   : `validateForeignKeys` / `Execute`
  * `internal/extractor/traversal`  : `executeRootQuery` (JSONB rewrite)
-/

namespace PgRocket

/-! ## Basic data model (package `db` and `graph`) -/

/-- `db.ForeignKey`: a single-column FK relationship between two tables. -/
structure ForeignKey where
  childTable : String
  childColumn : String
  parentTable : String
  parentColumn : String
deriving DecidableEq, Repr

/-- `graph.Graph`: parent/child FK adjacency and PK columns, with the Go maps
modelled as association lists (so that key-presence is representable). -/
structure Graph where
  parents : List (String × List ForeignKey)
  children : List (String × List ForeignKey)
  primaryKey : List (String × List String)
deriving Repr

/-- Association-list lookup, modelling a Go map read (`m[k]`). -/
def lookupA {α : Type} : List (String × α) → String → Option α
  | [], _ => none
  | (k, v) :: rest, key => if k = key then some v else lookupA rest key

/-- Go map read with the zero value as default (`m[k]` on a missing key). -/
def lookupD {α : Type} (m : List (String × α)) (key : String) (dflt : α) : α :=
  match lookupA m key with
  | some v => v
  | none => dflt

/-- `Graph.GetParents`: all FKs where the given table is the child. -/
def Graph.getParents (g : Graph) (table : String) : List ForeignKey :=
  lookupD g.parents table []

/-- `Graph.GetChildren`: all FKs where the given table is the parent. -/
def Graph.getChildren (g : Graph) (table : String) : List ForeignKey :=
  lookupD g.children table []

/-- `Graph.GetPrimaryKeyColumns`. -/
def Graph.getPrimaryKeyColumns (g : Graph) (table : String) : List String :=
  lookupD g.primaryKey table []

/-! ## Character/string utilities

Go's `strings`/`sort` helpers, re-implemented at the character level so that
every definition evaluates inside the kernel.  `sort.Strings` sorts by byte
order, which on valid UTF-8 agrees with code-point order. -/

/-- Byte-order "less or equal" on character lists (Go string comparison;
code-point order, which agrees with UTF-8 byte order). -/
def leChars : List Char → List Char → Bool
  | [], _ => true
  | _ :: _, [] => false
  | a :: as, b :: bs =>
    if a.toNat < b.toNat then true
    else if b.toNat < a.toNat then false
    else leChars as bs

theorem char_eq_of_toNat_eq {a b : Char} (h : a.toNat = b.toNat) : a = b :=
  Char.ext (UInt32.ext h)

/-- Go `s1 <= s2` on strings. -/
def leStr (a b : String) : Bool := leChars a.data b.data

/-- Insert into a sorted list (auxiliary for `sortStrings`). -/
def insertSorted (x : String) : List String → List String
  | [] => [x]
  | y :: ys => if leStr x y then x :: y :: ys else y :: insertSorted x ys

/-- `sort.Strings`: sort a list of strings ascending (as an insertion sort;
the result is the unique sorted permutation, which is all Go's sort
guarantees and all the code relies on). -/
def sortStrings : List String → List String
  | [] => []
  | x :: xs => insertSorted x (sortStrings xs)

theorem leChars_total (a b : List Char) : leChars a b = true ∨ leChars b a = true := by
  induction a generalizing b with
  | nil => left; rfl
  | cons x xs ih =>
    cases b with
    | nil => right; rfl
    | cons y ys =>
      by_cases hxy : x.toNat < y.toNat
      · left; simp [leChars, hxy]
      · by_cases hyx : y.toNat < x.toNat
        · right; simp [leChars, hyx, hxy]
        · rcases ih ys with h | h
          · left; simp [leChars, hxy, hyx, h]
          · right; simp [leChars, hxy, hyx, h]

theorem leChars_antisymm {a b : List Char} (h1 : leChars a b = true)
    (h2 : leChars b a = true) : a = b := by
  induction a generalizing b with
  | nil =>
    cases b with
    | nil => rfl
    | cons y ys => simp [leChars] at h2
  | cons x xs ih =>
    cases b with
    | nil => simp [leChars] at h1
    | cons y ys =>
      by_cases hxy : x.toNat < y.toNat
      · exfalso
        have hyx : ¬ y.toNat < x.toNat := by omega
        simp [leChars, hyx, hxy] at h2
      · by_cases hyx : y.toNat < x.toNat
        · exfalso; simp [leChars, hxy, hyx] at h1
        · have hx : x = y := char_eq_of_toNat_eq (by omega)
          subst hx
          simp [leChars, hxy] at h1 h2
          rw [ih h1 h2]

theorem leChars_trans {a b c : List Char} (h1 : leChars a b = true)
    (h2 : leChars b c = true) : leChars a c = true := by
  induction a generalizing b c with
  | nil => rfl
  | cons x xs ih =>
    cases b with
    | nil => simp [leChars] at h1
    | cons y ys =>
      cases c with
      | nil => simp [leChars] at h2
      | cons z zs =>
        by_cases hxy : x.toNat < y.toNat <;> by_cases hyz : y.toNat < z.toNat
        · have hxz : x.toNat < z.toNat := by omega
          simp [leChars, hxz]
        · have hzy : ¬ z.toNat < y.toNat := by
            intro h
            simp [leChars, hyz, h] at h2
          have hxz : x.toNat < z.toNat := by omega
          simp [leChars, hxz]
        · have hyx : ¬ y.toNat < x.toNat := by
            intro h
            simp [leChars, hxy, h] at h1
          have hxz : x.toNat < z.toNat := by omega
          simp [leChars, hxz]
        · have hyx : ¬ y.toNat < x.toNat := by
            intro h
            simp [leChars, hxy, h] at h1
          have hzy : ¬ z.toNat < y.toNat := by
            intro h
            simp [leChars, hyz, h] at h2
          have hxz1 : ¬ x.toNat < z.toNat := by omega
          have hzx : ¬ z.toNat < x.toNat := by omega
          simp [leChars, hxy, hyx] at h1
          simp [leChars, hyz, hzy] at h2
          simp [leChars, hxz1, hzx]
          exact ih h1 h2

theorem leStr_total (a b : String) : leStr a b = true ∨ leStr b a = true :=
  leChars_total a.data b.data

theorem leStr_antisymm {a b : String} (h1 : leStr a b = true)
    (h2 : leStr b a = true) : a = b := by
  cases a; cases b
  exact congrArg String.mk (leChars_antisymm h1 h2)

theorem leStr_trans {a b c : String} (h1 : leStr a b = true)
    (h2 : leStr b c = true) : leStr a c = true :=
  leChars_trans h1 h2

/-- The Prop-level order underlying `sortStrings`. -/
def LeS (a b : String) : Prop := leStr a b = true

instance : IsAntisymm String LeS := ⟨fun _ _ => leStr_antisymm⟩

theorem insertSorted_perm (x : String) (l : List String) :
    List.Perm (insertSorted x l) (x :: l) := by
  induction l with
  | nil => exact List.Perm.refl _
  | cons y ys ih =>
    unfold insertSorted
    by_cases h : leStr x y = true
    · simp [h]
    · rw [if_neg h]
      exact List.Perm.trans (ih.cons y) (List.Perm.swap x y ys)

theorem sortStrings_perm (l : List String) : List.Perm (sortStrings l) l := by
  induction l with
  | nil => exact List.Perm.refl _
  | cons x xs ih =>
    exact List.Perm.trans (insertSorted_perm x _) (ih.cons x)

theorem insertSorted_sorted (x : String) {l : List String}
    (hl : l.Sorted LeS) : (insertSorted x l).Sorted LeS := by
  induction l with
  | nil => exact List.sorted_singleton x
  | cons y ys ih =>
    unfold insertSorted
    by_cases h : leStr x y = true
    · simp only [if_pos h]
      refine List.sorted_cons.mpr ⟨?_, hl⟩
      intro b hb
      rcases List.mem_cons.mp hb with rfl | hb'
      · exact h
      · exact leStr_trans h (List.rel_of_sorted_cons hl b hb')
    · rw [if_neg h]
      have hys : ys.Sorted LeS := List.Sorted.of_cons hl
      refine List.sorted_cons.mpr ⟨?_, ih hys⟩
      intro b hb
      have hb2 := (insertSorted_perm x ys).mem_iff.mp hb
      rcases List.mem_cons.mp hb2 with rfl | hb'
      · rcases leStr_total y b with hy | hy
        · exact hy
        · exact absurd hy h
      · exact List.rel_of_sorted_cons hl b hb'

theorem sortStrings_sorted (l : List String) : (sortStrings l).Sorted LeS := by
  induction l with
  | nil => exact List.sorted_nil
  | cons x xs ih => exact insertSorted_sorted x ih

/-- `sortStrings` is canonical: permuted inputs sort to the same list. -/
theorem sortStrings_eq_of_perm {l l' : List String} (h : List.Perm l l') :
    sortStrings l = sortStrings l' := by
  refine List.eq_of_perm_of_sorted ?_ (sortStrings_sorted l) (sortStrings_sorted l')
  exact List.Perm.trans (sortStrings_perm l) (List.Perm.trans h (sortStrings_perm l').symm)

end PgRocket

namespace PgRocket

/-! ## Query validator: `DetectBaseTable` read-only guard (`internal/db/explain.go`)

Only the pure prefix of `DetectBaseTable` (trim, upper-case, write-keyword
substring check, assembly of the EXPLAIN statement) is embedded; everything
after it is network I/O.  The returned `.ok` value is the EXPLAIN statement
the function goes on to execute, so `.error` means no EXPLAIN is issued. -/

/-- ASCII model of Go `unicode.IsSpace` (the characters `strings.TrimSpace`
removes from SQL text). -/
def isSpaceChar (c : Char) : Bool :=
  c = ' ' || c = '\t' || c = '\n' || c = '\r' || c.toNat = 11 || c.toNat = 12

/-- Go `strings.TrimSpace` on the character list of a string. -/
def trimChars (l : List Char) : List Char :=
  ((l.dropWhile isSpaceChar).reverse.dropWhile isSpaceChar).reverse

/-- Go `strings.ToUpper` (ASCII). -/
def toUpperChars (l : List Char) : List Char := l.map Char.toUpper

/-- Whether `n` begins `h` (auxiliary for the substring test). -/
def isPfxOf : List Char → List Char → Bool
  | [], _ => true
  | _ :: _, [] => false
  | a :: as, b :: bs => a = b && isPfxOf as bs

/-- Go `strings.Contains hay needle` (argument order: needle first here). -/
def containsSub (needle : List Char) : List Char → Bool
  | [] => isPfxOf needle []
  | h :: t => isPfxOf needle (h :: t) || containsSub needle t

/-- The six write keywords rejected by `DetectBaseTable`. -/
def writeKeywords : List (List Char) :=
  ["INSERT".data, "UPDATE".data, "DELETE".data, "DROP".data, "CREATE".data,
   "ALTER".data]

/-- The read-only rejection message of `DetectBaseTable`. -/
def readOnlyErrMsg : String := "query must be read-only (SELECT only)"

/-- The pure prefix of `db.Connection.DetectBaseTable` (explain.go lines
25-44): trim the query, upper-case it, reject if any write keyword occurs as
a substring, otherwise build the `EXPLAIN (FORMAT JSON)` statement that is
then executed. -/
def detectBaseTableGuard (query : String) : Except String String :=
  let q : String := ⟨trimChars query.data⟩
  let upperQuery : String := ⟨toUpperChars q.data⟩
  if containsSub "INSERT".data upperQuery.data ||
     containsSub "UPDATE".data upperQuery.data ||
     containsSub "DELETE".data upperQuery.data ||
     containsSub "DROP".data upperQuery.data ||
     containsSub "CREATE".data upperQuery.data ||
     containsSub "ALTER".data upperQuery.data then
    Except.error readOnlyErrMsg
  else
    Except.ok ("EXPLAIN (FORMAT JSON) " ++ q)

theorem isPfxOf_iff (n h : List Char) :
    isPfxOf n h = true ↔ ∃ rest, h = n ++ rest := by
  induction n generalizing h with
  | nil => simp [isPfxOf]
  | cons a as ih =>
    cases h with
    | nil =>
      simp [isPfxOf]
    | cons b bs =>
      simp only [isPfxOf, Bool.and_eq_true, decide_eq_true_eq, ih]
      constructor
      · rintro ⟨rfl, rest, rfl⟩
        exact ⟨rest, rfl⟩
      · rintro ⟨rest, heq⟩
        rw [List.cons_append] at heq
        injection heq with h1 h2
        exact ⟨h1.symm, rest, h2⟩

theorem containsSub_iff (n hay : List Char) :
    containsSub n hay = true ↔ ∃ pre post, hay = pre ++ n ++ post := by
  induction hay with
  | nil =>
    simp only [containsSub, isPfxOf_iff]
    constructor
    · rintro ⟨rest, h⟩
      exact ⟨[], rest, by simp [h.symm]⟩
    · rintro ⟨pre, post, h⟩
      have : n = [] ∧ pre = [] ∧ post = [] := by
        constructor
        · cases n with
          | nil => rfl
          | cons x xs => simp at h
        · constructor
          · cases pre with
            | nil => rfl
            | cons x xs => simp at h
          · cases post with
            | nil => rfl
            | cons x xs =>
              rcases List.append_eq_nil.mp h.symm with ⟨h1, h2⟩
              exact absurd h2 (by simp)
      exact ⟨[], by simp [this.1]⟩
  | cons c t ih =>
    simp only [containsSub, Bool.or_eq_true, isPfxOf_iff, ih]
    constructor
    · rintro (⟨rest, h⟩ | ⟨pre, post, h⟩)
      · exact ⟨[], rest, by simp [h]⟩
      · exact ⟨c :: pre, post, by simp [h]⟩
    · rintro ⟨pre, post, h⟩
      cases pre with
      | nil => exact Or.inl ⟨post, by simpa using h⟩
      | cons p ps =>
        right
        refine ⟨ps, post, ?_⟩
        simpa using List.cons.inj h |>.2

/-- The upper-cased, trimmed text `DetectBaseTable` scans for keywords. -/
def upperTrimmed (query : String) : List Char :=
  toUpperChars (trimChars query.data)

end PgRocket

deriving instance DecidableEq for Except

namespace PgRocket

/-- **C7.** A query whose trimmed, upper-cased text contains any of INSERT,
UPDATE, DELETE, DROP, CREATE or ALTER as a substring is rejected by
`DetectBaseTable` with the read-only error before any EXPLAIN statement is
assembled or executed; a query containing none of them passes the check and
proceeds to `EXPLAIN (FORMAT JSON) <trimmed query>`. -/
theorem detectBaseTable_rejects_writes (query : String) :
    (detectBaseTableGuard query = Except.error readOnlyErrMsg ↔
      ∃ kw ∈ writeKeywords, ∃ pre post, upperTrimmed query = pre ++ kw ++ post) ∧
    (detectBaseTableGuard query ≠ Except.error readOnlyErrMsg →
      detectBaseTableGuard query =
        Except.ok ("EXPLAIN (FORMAT JSON) " ++ (⟨trimChars query.data⟩ : String))) := by
  have hut : upperTrimmed query = toUpperChars (trimChars query.data) := rfl
  unfold detectBaseTableGuard
  simp only []
  by_cases hb :
      (containsSub "INSERT".data (toUpperChars (trimChars query.data)) ||
       containsSub "UPDATE".data (toUpperChars (trimChars query.data)) ||
       containsSub "DELETE".data (toUpperChars (trimChars query.data)) ||
       containsSub "DROP".data (toUpperChars (trimChars query.data)) ||
       containsSub "CREATE".data (toUpperChars (trimChars query.data)) ||
       containsSub "ALTER".data (toUpperChars (trimChars query.data))) = true
  · rw [if_pos hb]
    constructor
    · constructor
      · intro _
        simp only [Bool.or_eq_true] at hb
        rw [hut]
        rcases hb with ((((h | h) | h) | h) | h) | h
        · exact ⟨"INSERT".data, by simp [writeKeywords], (containsSub_iff _ _).mp h⟩
        · exact ⟨"UPDATE".data, by simp [writeKeywords], (containsSub_iff _ _).mp h⟩
        · exact ⟨"DELETE".data, by simp [writeKeywords], (containsSub_iff _ _).mp h⟩
        · exact ⟨"DROP".data, by simp [writeKeywords], (containsSub_iff _ _).mp h⟩
        · exact ⟨"CREATE".data, by simp [writeKeywords], (containsSub_iff _ _).mp h⟩
        · exact ⟨"ALTER".data, by simp [writeKeywords], (containsSub_iff _ _).mp h⟩
      · intro _; rfl
    · intro hne
      exact absurd rfl hne
  · rw [if_neg hb]
    refine ⟨⟨fun h => by exact absurd h (by simp), ?_⟩, fun _ => rfl⟩
    rintro ⟨kw, hkw, pre, post, heq⟩
    exfalso
    apply hb
    rw [hut] at heq
    simp only [Bool.or_eq_true]
    have hc : containsSub kw (toUpperChars (trimChars query.data)) = true :=
      (containsSub_iff _ _).mpr ⟨pre, post, heq⟩
    simp only [writeKeywords, List.mem_cons, List.mem_singleton] at hkw
    rcases hkw with rfl | rfl | rfl | rfl | rfl | h
    · exact Or.inl (Or.inl (Or.inl (Or.inl (Or.inl hc))))
    · exact Or.inl (Or.inl (Or.inl (Or.inl (Or.inr hc))))
    · exact Or.inl (Or.inl (Or.inl (Or.inr hc)))
    · exact Or.inl (Or.inl (Or.inr hc))
    · exact Or.inl (Or.inr hc)
    · rcases h with rfl | h
      · exact Or.inr hc
      · exact absurd h (List.not_mem_nil kw)

/-- Witness for **C7**: `SELECT id FROM users` contains no write keyword, so
the guard passes and produces the EXPLAIN statement. -/
theorem detectBaseTable_rejects_writes_witness :
    detectBaseTableGuard "SELECT id FROM users" ≠ Except.error readOnlyErrMsg ∧
    detectBaseTableGuard "SELECT id FROM users" =
      Except.ok "EXPLAIN (FORMAT JSON) SELECT id FROM users" :=
  ⟨by decide, (detectBaseTable_rejects_writes "SELECT id FROM users").2 (by decide)⟩

end PgRocket

namespace PgRocket

/-! ## Traversal engine: the row processor (`processRows`)

`extractor.TraversalState.processRows` is embedded over an inductive `Value`
type standing for the driver's `interface{}` values.  `processRowsWithJSONBInfo`
has literally identical row-processing logic (its `jsonbCols` argument only
documents how values were produced upstream), so one embedding covers both. -/

/-- A driver value (`interface{}`): the null marker and the scalar shapes the
claims exercise. -/
inductive Value where
  | vnull
  | vint (n : Int)
  | vstr (s : String)
  | vbool (b : Bool)
deriving DecidableEq, Repr

/-- Go `fmt.Sprintf("%v", v)` on a single driver value. -/
def Value.render : Value → String
  | .vnull => "<nil>"
  | .vint n => toString n
  | .vstr s => s
  | .vbool true => "true"
  | .vbool false => "false"

/-- Go `fmt.Sprintf("%v", vs)` on a slice of values: `[v1 v2 ...]`. -/
def renderSlice (vs : List Value) : String :=
  "[" ++ String.intercalate " " (vs.map Value.render) ++ "]"

/-- A PK identity as stored in `VisitedRows` (`interface{}` map key): the raw
scalar for a single-column PK, the `fmt.Sprintf` rendering for a composite
one.  Within one table the branch is fixed by the number of PK columns, so
the sum type is faithful to Go's `interface{}` key equality. -/
inductive PKKey where
  | single (v : Value)
  | comp (s : String)
deriving DecidableEq, Repr

/-- A row map (`map[string]interface{}`), as an association list. -/
abbrev Row := List (String × Value)

/-- Go map write `m[k] = v` (overwrite or append). -/
def setEntry {α : Type} : List (String × α) → String → α → List (String × α)
  | [], k, v => [(k, v)]
  | (k', v') :: rest, k, v =>
    if k' = k then (k, v) :: rest else (k', v') :: setEntry rest k v

/-- Building `rowMap` from the field descriptors and the value slice
(`rowMap[colName] = value` for each index). -/
def rowOfValues (fieldNames : List String) (values : List Value) : Row :=
  (List.zip fieldNames values).foldl (fun m kv => setEntry m kv.1 kv.2) []

/-- The `pkValues` collection loop: for each value (in field order), append it
once for every PK column whose name matches the field's name. -/
def pkValuesOf (pkColumns fieldNames : List String) (values : List Value) :
    List Value :=
  (List.zip fieldNames values).foldl
    (fun acc kv =>
      acc ++ pkColumns.filterMap (fun pkCol => if kv.1 = pkCol then some kv.2 else none))
    []

/-- `pkKey` construction: raw scalar for a single value, `fmt.Sprintf("%v", ...)`
string otherwise. -/
def keyOfPkValues (vs : List Value) : PKKey :=
  match vs with
  | [v] => PKKey.single v
  | _ => PKKey.comp (renderSlice vs)

/-- Error for a missing PK value (traversal.go line 217). -/
def pkMissingMsg (t : String) : String :=
  "primary key value(s) missing in table " ++ t

/-- Error for a NULL PK value (traversal.go line 230). -/
def pkNullMsg (t : String) : String :=
  "primary key value is NULL in table " ++ t

/-- The row-cap error (traversal.go line 242): quotes `MaxRows` and suggests
`--force`. -/
def rowLimitMsg (maxRows : Nat) : String :=
  "row limit exceeded (" ++ toString maxRows ++ " rows). Use --force to override"

/-- `extractor.TraversalState` (the fields the row processor touches).
`MaxRows` is `int` in Go; the spec constrains it to `max_rows ≥ 0` and
`RowCount` is only ever incremented from 0, so both are `Nat` here. -/
structure TraversalState where
  visitedRows : List (String × List PKKey)
  tableData : List (String × List Row)
  rowCount : Nat
deriving DecidableEq, Repr

/-- The fresh state produced by `NewTraversalState`. -/
def initialState : TraversalState := ⟨[], [], 0⟩

/-- The per-row loop body of `processRows` (traversal.go lines 195-244),
threading the per-table visited set, the local `newRows` batch and the global
row counter. -/
def processLoop (tableName : String) (pkColumns fieldNames : List String)
    (force : Bool) (maxRows : Nat) :
    List (List Value) → List PKKey → List Row → Nat →
    Except String (List PKKey × List Row × Nat)
  | [], vt, newRows, rc => Except.ok (vt, newRows, rc)
  | values :: rest, vt, newRows, rc =>
    let rowMap := rowOfValues fieldNames values
    let pkValues := pkValuesOf pkColumns fieldNames values
    if pkValues.length ≠ pkColumns.length then
      Except.error (pkMissingMsg tableName)
    else
      let pkKey := keyOfPkValues pkValues
      if pkKey = PKKey.single Value.vnull then
        Except.error (pkNullMsg tableName)
      else if pkKey ∈ vt then
        processLoop tableName pkColumns fieldNames force maxRows rest vt newRows rc
      else
        let vt' := vt ++ [pkKey]
        let rc' := rc + 1
        if !force && decide (rc' > maxRows) then
          Except.error (rowLimitMsg maxRows)
        else
          processLoop tableName pkColumns fieldNames force maxRows rest vt'
            (newRows ++ [rowMap]) rc'

/-- `extractor.TraversalState.processRows` (traversal.go lines 185-254): run
the per-row loop, then commit the visited set, the non-empty `newRows` batch
and the row counter into the state. -/
def processRows (g : Graph) (tableName : String) (fieldNames : List String)
    (rowsIn : List (List Value)) (force : Bool) (maxRows : Nat)
    (st : TraversalState) : Except String TraversalState :=
  match processLoop tableName (g.getPrimaryKeyColumns tableName) fieldNames force
      maxRows rowsIn (lookupD st.visitedRows tableName []) [] st.rowCount with
  | Except.error e => Except.error e
  | Except.ok (vt, newRows, rc) =>
    Except.ok
      { visitedRows := setEntry st.visitedRows tableName vt
        tableData :=
          if newRows = [] then st.tableData
          else setEntry st.tableData tableName
            (lookupD st.tableData tableName [] ++ newRows)
        rowCount := rc }

/-! ### Association-list lemmas -/

theorem lookupA_setEntry {α : Type} (m : List (String × α)) (k k' : String) (v : α) :
    lookupA (setEntry m k v) k' = if k = k' then some v else lookupA m k' := by
  induction m with
  | nil =>
    by_cases h : k = k' <;> simp [setEntry, lookupA, h]
  | cons e rest ih =>
    obtain ⟨ek, ev⟩ := e
    by_cases hek : ek = k
    · subst hek
      by_cases h : ek = k' <;> simp [setEntry, lookupA, h]
    · simp only [setEntry, if_neg hek]
      by_cases h : ek = k'
      · subst h
        have hkk : ¬ k = ek := fun hh => hek hh.symm
        simp [lookupA, hkk]
      · simp [lookupA, h, ih]

theorem lookupD_setEntry_self {α : Type} (m : List (String × α)) (k : String)
    (v dflt : α) : lookupD (setEntry m k v) k dflt = v := by
  simp [lookupD, lookupA_setEntry]

theorem lookupD_setEntry_ne {α : Type} (m : List (String × α)) {k k' : String}
    (h : k ≠ k') (v : α) (dflt : α) :
    lookupD (setEntry m k v) k' dflt = lookupD m k' dflt := by
  simp [lookupD, lookupA_setEntry, h]

theorem mem_setEntry {α : Type} {m : List (String × α)} {k : String} {v : α}
    {e : String × α} (h : e ∈ setEntry m k v) : e = (k, v) ∨ e ∈ m := by
  induction m with
  | nil => simpa [setEntry] using h
  | cons e' rest ih =>
    by_cases hek : e'.1 = k
    · rw [show setEntry (e' :: rest) k v = (k, v) :: rest by
        cases e'; simp [setEntry] at hek ⊢; simp [hek]] at h
      rcases List.mem_cons.mp h with rfl | hm
      · exact Or.inl rfl
      · exact Or.inr (List.mem_cons_of_mem _ hm)
    · rw [show setEntry (e' :: rest) k v = e' :: setEntry rest k v by
        cases e'; simp [setEntry] at hek ⊢; simp [hek]] at h
      rcases List.mem_cons.mp h with rfl | hm
      · exact Or.inr (List.mem_cons_self _ _)
      · rcases ih hm with h1 | h1
        · exact Or.inl h1
        · exact Or.inr (List.mem_cons_of_mem _ h1)

/-- Total row count in the data map. -/
def sumData (d : List (String × List Row)) : Nat :=
  (d.map (fun e => e.2.length)).sum

theorem sumData_setEntry (m : List (String × List Row)) (k : String)
    (v : List Row) :
    sumData (setEntry m k v) + (lookupD m k []).length
      = sumData m + v.length := by
  induction m with
  | nil => simp [setEntry, sumData, lookupD, lookupA]
  | cons e rest ih =>
    obtain ⟨ek, ev⟩ := e
    by_cases hek : ek = k
    · subst hek
      simp [setEntry, sumData, lookupD, lookupA]
      omega
    · have hke : ¬ k = ek := fun hh => hek hh.symm
      simp only [setEntry, if_neg hek, sumData, List.map_cons,
        List.sum_cons, lookupD, lookupA, if_neg hke]
      have := ih
      simp only [sumData, lookupD] at this
      omega

end PgRocket

namespace PgRocket

/-- What one successful run of the per-row loop adds: a block of new keys and
a block of new rows of equal length, the counter advanced by that length, and
each new row's PK identity (as computed by the processor) in the final
visited set. -/
theorem processLoop_ok_spec (tableName : String) (pkColumns fieldNames : List String)
    (force : Bool) (maxRows : Nat) :
    ∀ (rowsIn : List (List Value)) (vt : List PKKey) (newRows : List Row) (rc : Nat)
      (vt' : List PKKey) (newRows' : List Row) (rc' : Nat),
      processLoop tableName pkColumns fieldNames force maxRows rowsIn vt newRows rc
        = Except.ok (vt', newRows', rc') →
      ∃ ks rs, vt' = vt ++ ks ∧ newRows' = newRows ++ rs ∧ ks.length = rs.length ∧
        rc' = rc + rs.length ∧
        ∀ r ∈ rs, ∃ values, r = rowOfValues fieldNames values ∧
          keyOfPkValues (pkValuesOf pkColumns fieldNames values) ∈ vt' := by
  intro rowsIn
  induction rowsIn with
  | nil =>
    intro vt newRows rc vt' newRows' rc' h
    simp only [processLoop, Except.ok.injEq, Prod.mk.injEq] at h
    obtain ⟨h1, h2, h3⟩ := h
    subst h1; subst h2; subst h3
    exact ⟨[], [], by simp, by simp, rfl, by simp, by simp⟩
  | cons values rest ih =>
    intro vt newRows rc vt' newRows' rc' h
    simp only [processLoop] at h
    by_cases hlen :
        (pkValuesOf pkColumns fieldNames values).length ≠ pkColumns.length
    · rw [if_pos hlen] at h
      exact absurd h (by simp)
    · rw [if_neg hlen] at h
      set k := keyOfPkValues (pkValuesOf pkColumns fieldNames values) with hk
      by_cases hnull : k = PKKey.single Value.vnull
      · rw [if_pos hnull] at h
        exact absurd h (by simp)
      · rw [if_neg hnull] at h
        by_cases hmem : k ∈ vt
        · rw [if_pos hmem] at h
          exact ih vt newRows rc vt' newRows' rc' h
        · rw [if_neg hmem] at h
          by_cases hlim : (!force && decide (rc + 1 > maxRows)) = true
          · rw [if_pos hlim] at h
            exact absurd h (by simp)
          · rw [if_neg hlim] at h
            obtain ⟨ks, rs, hvt, hnr, hlen2, hrc, hprop⟩ :=
              ih (vt ++ [k]) (newRows ++ [rowOfValues fieldNames values]) (rc + 1)
                vt' newRows' rc' h
            refine ⟨k :: ks, rowOfValues fieldNames values :: rs, ?_, ?_, ?_, ?_, ?_⟩
            · rw [hvt, List.append_assoc]; rfl
            · rw [hnr, List.append_assoc]; rfl
            · simp [hlen2]
            · simp [hrc]; omega
            · intro r hr
              rcases List.mem_cons.mp hr with rfl | hr'
              · refine ⟨values, rfl, ?_⟩
                rw [hvt]
                exact List.mem_append_left ks
                  (List.mem_append_right vt (List.mem_singleton_self k))
              · exact hprop r hr'

/-- A stored row's PK identity (as the processor computed it when the row was
appended) is present in the visited set. -/
def RowHasKey (pkColumns : List String) (vt : List PKKey) (r : Row) : Prop :=
  ∃ fieldNames values, r = rowOfValues fieldNames values ∧
    keyOfPkValues (pkValuesOf pkColumns fieldNames values) ∈ vt

/-- The traversal-state invariants of the spec (§3): every stored row's PK
identity is in the table's visited set, the visited set and the data list of
every table have equal size, and `RowCount` is the total data size. -/
def StateInv (g : Graph) (st : TraversalState) : Prop :=
  (∀ t : String, ∀ r ∈ lookupD st.tableData t [],
    RowHasKey (g.getPrimaryKeyColumns t) (lookupD st.visitedRows t []) r) ∧
  (∀ t : String,
    (lookupD st.visitedRows t []).length = (lookupD st.tableData t []).length) ∧
  st.rowCount = sumData st.tableData

/-- The fresh state of `NewTraversalState` satisfies the invariants. -/
theorem initialState_inv (g : Graph) : StateInv g initialState := by
  refine ⟨?_, ?_, rfl⟩
  · intro t r hr
    simp [initialState, lookupD, lookupA] at hr
  · intro t
    simp [initialState, lookupD, lookupA]

/-- **C2.** Every completed (successful) `processRows` call preserves the
traversal invariants: each row stored in `data[T]` has its PK identity in
`visited[T]`, `|visited[T]| = |data[T]|` for every table `T`, and `RowCount`
equals the total number of stored rows. -/
theorem processRows_maintains_invariants (g : Graph) (tableName : String)
    (fieldNames : List String) (rowsIn : List (List Value)) (force : Bool)
    (maxRows : Nat) (st st' : TraversalState)
    (hInv : StateInv g st)
    (h : processRows g tableName fieldNames rowsIn force maxRows st
          = Except.ok st') :
    StateInv g st' := by
  obtain ⟨hInv1, hInv2, hInv3⟩ := hInv
  unfold processRows at h
  have hvt0 : (lookupD st.visitedRows tableName [] : List PKKey)
      = lookupD st.visitedRows tableName [] := rfl
  cases hloop : processLoop tableName (g.getPrimaryKeyColumns tableName)
      fieldNames force maxRows rowsIn (lookupD st.visitedRows tableName []) []
      st.rowCount with
  | error e => rw [hloop] at h; exact absurd h (by simp)
  | ok out =>
    obtain ⟨vt, newRows, rc⟩ := out
    rw [hloop] at h
    simp only [Except.ok.injEq] at h
    obtain ⟨ks, rs, hvt, hnr, hlen, hrc, hprop⟩ :=
      processLoop_ok_spec tableName (g.getPrimaryKeyColumns tableName) fieldNames
        force maxRows rowsIn (lookupD st.visitedRows tableName []) []
        st.rowCount vt newRows rc hloop
    simp only [List.nil_append] at hnr
    subst h
    rw [hnr]
    by_cases hrs : rs = []
    · subst hrs
      have hks : ks = [] := by simp at hlen; exact hlen
      subst hks
      simp only [List.append_nil] at hvt
      subst hvt
      refine ⟨?_, ?_, ?_⟩
      · intro t r hr
        simp only [if_pos rfl] at hr
        by_cases ht : tableName = t
        · subst ht
          rw [lookupD_setEntry_self]
          rw [← hvt0]
          exact hInv1 _ r hr
        · rw [lookupD_setEntry_ne _ ht]
          exact hInv1 t r hr
      · intro t
        by_cases ht : tableName = t
        · subst ht
          rw [lookupD_setEntry_self, ← hvt0]
          exact hInv2 tableName
        · rw [lookupD_setEntry_ne _ ht]
          exact hInv2 t
      · simpa [hrc, List.length_nil] using hInv3
    · have hdata :
          (if rs = [] then st.tableData
           else setEntry st.tableData tableName
             (lookupD st.tableData tableName [] ++ rs))
          = setEntry st.tableData tableName
              (lookupD st.tableData tableName [] ++ rs) := if_neg hrs
      rw [hdata]
      refine ⟨?_, ?_, ?_⟩
      · intro t r hr
        by_cases ht : tableName = t
        · subst ht
          rw [lookupD_setEntry_self] at hr
          rw [lookupD_setEntry_self]
          rcases List.mem_append.mp hr with hold | hnew
          · obtain ⟨fns, vs, hrow, hkey⟩ := hInv1 tableName r hold
            exact ⟨fns, vs, hrow, by rw [hvt]; exact List.mem_append_left _ hkey⟩
          · obtain ⟨vs, hrow, hkey⟩ := hprop r hnew
            exact ⟨fieldNames, vs, hrow, hkey⟩
        · rw [lookupD_setEntry_ne _ ht] at hr
          rw [lookupD_setEntry_ne _ ht]
          exact hInv1 t r hr
      · intro t
        by_cases ht : tableName = t
        · subst ht
          rw [lookupD_setEntry_self, lookupD_setEntry_self, hvt]
          simp only [List.length_append]
          rw [hInv2 tableName, hlen]
        · rw [lookupD_setEntry_ne _ ht, lookupD_setEntry_ne _ ht]
          exact hInv2 t
      · have hsum := sumData_setEntry st.tableData tableName
          (lookupD st.tableData tableName [] ++ rs)
        simp only [List.length_append] at hsum
        simp only [hrc, hInv3]
        omega

end PgRocket

namespace PgRocket

/-- Example graph: table `t` with single-column PK `id`. -/
def gEx : Graph := ⟨[], [], [("t", ["id"])]⟩

/-- The state after ingesting one row of `t` into the fresh state. -/
def stEx1 : TraversalState :=
  ⟨[("t", [PKKey.single (Value.vint 1)])],
   [("t", [[("id", Value.vint 1), ("name", Value.vstr "a")]])], 1⟩

/-- Witness for **C2**: a concrete one-row `processRows` call from the fresh
state produces `stEx1` and the invariants hold for it. -/
theorem processRows_maintains_invariants_witness :
    processRows gEx "t" ["id", "name"] [[Value.vint 1, Value.vstr "a"]] false 10
        initialState = Except.ok stEx1 ∧
    StateInv gEx stEx1 :=
  ⟨by rfl,
   processRows_maintains_invariants gEx "t" ["id", "name"]
     [[Value.vint 1, Value.vstr "a"]] false 10 initialState stEx1
     (initialState_inv gEx) (by rfl)⟩

/-! ### C3: the row cap -/

/-- The distinct new PK identities a batch contributes, given the visited set
(the rows the processor will actually count). -/
def newKeysOf (pkColumns fieldNames : List String) (vt : List PKKey) :
    List (List Value) → List PKKey
  | [] => []
  | values :: rest =>
    let k := keyOfPkValues (pkValuesOf pkColumns fieldNames values)
    if k ∈ vt then newKeysOf pkColumns fieldNames vt rest
    else k :: newKeysOf pkColumns fieldNames (vt ++ [k]) rest

/-- A row that passes the PK-shape checks of the processor. -/
def WellFormedRow (pkColumns fieldNames : List String) (values : List Value) : Prop :=
  (pkValuesOf pkColumns fieldNames values).length = pkColumns.length ∧
  keyOfPkValues (pkValuesOf pkColumns fieldNames values) ≠ PKKey.single Value.vnull

instance (pkColumns fieldNames : List String) (values : List Value) :
    Decidable (WellFormedRow pkColumns fieldNames values) := by
  unfold WellFormedRow; infer_instance

theorem processLoop_limit (tableName : String) (pkColumns fieldNames : List String)
    (maxRows : Nat) :
    ∀ (rowsIn : List (List Value)) (vt : List PKKey) (newRows : List Row) (rc : Nat),
      (∀ values ∈ rowsIn, WellFormedRow pkColumns fieldNames values) →
      (∃ out, processLoop tableName pkColumns fieldNames true maxRows rowsIn vt
          newRows rc = Except.ok out) ∧
      ((newKeysOf pkColumns fieldNames vt rowsIn).length = 0 ∨
          rc + (newKeysOf pkColumns fieldNames vt rowsIn).length ≤ maxRows →
        ∃ out, processLoop tableName pkColumns fieldNames false maxRows rowsIn vt
          newRows rc = Except.ok out) ∧
      ((newKeysOf pkColumns fieldNames vt rowsIn).length ≠ 0 →
        rc + (newKeysOf pkColumns fieldNames vt rowsIn).length > maxRows →
        processLoop tableName pkColumns fieldNames false maxRows rowsIn vt newRows
          rc = Except.error (rowLimitMsg maxRows)) := by
  intro rowsIn
  induction rowsIn with
  | nil =>
    intro vt newRows rc _
    refine ⟨⟨(vt, newRows, rc), rfl⟩, fun _ => ⟨(vt, newRows, rc), rfl⟩, fun hd _ => ?_⟩
    simp [newKeysOf] at hd
  | cons values rest ih =>
    intro vt newRows rc hwf
    obtain ⟨hlen, hnull⟩ := hwf values (List.mem_cons_self _ _)
    have hwf' : ∀ v ∈ rest, WellFormedRow pkColumns fieldNames v :=
      fun v hv => hwf v (List.mem_cons_of_mem _ hv)
    have hlen' : ¬ (pkValuesOf pkColumns fieldNames values).length ≠ pkColumns.length :=
      by simp [hlen]
    by_cases hmem : keyOfPkValues (pkValuesOf pkColumns fieldNames values) ∈ vt
    · have hres : ∀ force newRows' rc',
          processLoop tableName pkColumns fieldNames force maxRows
            (values :: rest) vt newRows' rc'
          = processLoop tableName pkColumns fieldNames force maxRows rest vt
              newRows' rc' := by
        intro force newRows' rc'
        simp only [processLoop, if_neg hlen', if_neg hnull, if_pos hmem]
      have hkeys : newKeysOf pkColumns fieldNames vt (values :: rest)
          = newKeysOf pkColumns fieldNames vt rest := by
        simp only [newKeysOf, if_pos hmem]
      simp only [hres, hkeys]
      exact ih vt newRows rc hwf'
    · have hkeys : newKeysOf pkColumns fieldNames vt (values :: rest)
          = keyOfPkValues (pkValuesOf pkColumns fieldNames values) ::
            newKeysOf pkColumns fieldNames
              (vt ++ [keyOfPkValues (pkValuesOf pkColumns fieldNames values)]) rest := by
        simp only [newKeysOf, if_neg hmem]
      obtain ⟨ihT, ihOk, ihErr⟩ :=
        ih (vt ++ [keyOfPkValues (pkValuesOf pkColumns fieldNames values)])
          (newRows ++ [rowOfValues fieldNames values]) (rc + 1) hwf'
      refine ⟨?_, ?_, ?_⟩
      · obtain ⟨out, hout⟩ := ihT
        refine ⟨out, ?_⟩
        simp only [processLoop, if_neg hlen', if_neg hnull, if_neg hmem,
          Bool.not_true, Bool.false_and, Bool.false_eq_true, if_false]
        exact hout
      · intro hcond
        rw [hkeys] at hcond
        simp only [List.length_cons] at hcond
        have hle : rc + 1 ≤ maxRows := by omega
        have hnotgt : ¬ (!false && decide (rc + 1 > maxRows)) = true := by
          simp; omega
        obtain ⟨out, hout⟩ := ihOk (by
          rcases hcond with h | h
          · exact absurd h (by omega)
          · right; omega)
        refine ⟨out, ?_⟩
        simp only [processLoop, if_neg hlen', if_neg hnull, if_neg hmem,
          if_neg hnotgt]
        exact hout
      · intro hd hgt
        rw [hkeys] at hd hgt
        simp only [List.length_cons] at hd hgt
        by_cases hover : rc + 1 > maxRows
        · have hcase : (!false && decide (rc + 1 > maxRows)) = true := by
            simp; omega
          simp only [processLoop, if_neg hlen', if_neg hnull, if_neg hmem,
            if_pos hcase]
        · have hnotgt : ¬ (!false && decide (rc + 1 > maxRows)) = true := by
            simp; omega
          have hd' : (newKeysOf pkColumns fieldNames
              (vt ++ [keyOfPkValues (pkValuesOf pkColumns fieldNames values)])
              rest).length ≠ 0 := by omega
          have herr := ihErr hd' (by omega)
          simp only [processLoop, if_neg hlen', if_neg hnull, if_neg hmem,
            if_neg hnotgt]
          exact herr

/-- **C3.** With well-formed rows, the row processor enforces the row cap
exactly: with `force` it always succeeds; without `force` it succeeds iff the
batch adds no new row or the accumulated distinct-row count stays within
`max_rows`; and whenever the count exceeds `max_rows` it fails with the
row-limit error, whose message quotes `max_rows` and suggests `--force`. -/
theorem processRows_row_cap (g : Graph) (tableName : String)
    (fieldNames : List String) (rowsIn : List (List Value)) (maxRows : Nat)
    (st : TraversalState)
    (hwf : ∀ values ∈ rowsIn,
      WellFormedRow (g.getPrimaryKeyColumns tableName) fieldNames values) :
    (∃ st', processRows g tableName fieldNames rowsIn true maxRows st
        = Except.ok st') ∧
    ((newKeysOf (g.getPrimaryKeyColumns tableName) fieldNames
        (lookupD st.visitedRows tableName []) rowsIn).length = 0 ∨
      st.rowCount + (newKeysOf (g.getPrimaryKeyColumns tableName) fieldNames
        (lookupD st.visitedRows tableName []) rowsIn).length ≤ maxRows →
      ∃ st', processRows g tableName fieldNames rowsIn false maxRows st
        = Except.ok st') ∧
    ((newKeysOf (g.getPrimaryKeyColumns tableName) fieldNames
        (lookupD st.visitedRows tableName []) rowsIn).length ≠ 0 →
      st.rowCount + (newKeysOf (g.getPrimaryKeyColumns tableName) fieldNames
        (lookupD st.visitedRows tableName []) rowsIn).length > maxRows →
      processRows g tableName fieldNames rowsIn false maxRows st
        = Except.error (rowLimitMsg maxRows)) := by
  obtain ⟨hT, hOk, hErr⟩ :=
    processLoop_limit tableName (g.getPrimaryKeyColumns tableName) fieldNames
      maxRows rowsIn (lookupD st.visitedRows tableName []) [] st.rowCount hwf
  refine ⟨?_, ?_, ?_⟩
  · obtain ⟨out, hout⟩ := hT
    obtain ⟨vt, nr, rc⟩ := out
    unfold processRows
    rw [hout]
    exact ⟨_, rfl⟩
  · intro hcond
    obtain ⟨out, hout⟩ := hOk hcond
    obtain ⟨vt, nr, rc⟩ := out
    unfold processRows
    rw [hout]
    exact ⟨_, rfl⟩
  · intro hd hgt
    have herr := hErr hd hgt
    unfold processRows
    rw [herr]

/-- Witness for **C3**: cap 2, three distinct rows.  Without `--force` the
call fails with the row-limit error; with `--force` it succeeds. -/
theorem processRows_row_cap_witness :
    (∀ values ∈ [[Value.vint 1], [Value.vint 2], [Value.vint 3]],
      WellFormedRow (gEx.getPrimaryKeyColumns "t") ["id"] values) ∧
    processRows gEx "t" ["id"] [[Value.vint 1], [Value.vint 2], [Value.vint 3]]
      false 2 initialState = Except.error (rowLimitMsg 2) ∧
    (∃ st', processRows gEx "t" ["id"]
      [[Value.vint 1], [Value.vint 2], [Value.vint 3]] true 2 initialState
        = Except.ok st') :=
  ⟨by decide,
   (processRows_row_cap gEx "t" ["id"]
      [[Value.vint 1], [Value.vint 2], [Value.vint 3]] 2 initialState
      (by decide)).2.2 (by decide) (by decide),
   (processRows_row_cap gEx "t" ["id"]
      [[Value.vint 1], [Value.vint 2], [Value.vint 3]] 2 initialState
      (by decide)).1⟩

end PgRocket

namespace PgRocket

/-! ### C8: the PK-shape checks

The processor checks `len(pkValues) != len(pkColumns)` and then `pkKey == nil`.
For a composite PK the key is the `fmt.Sprintf` string, which is never nil,
so a null *component* of a composite PK passes both checks. -/

/-- The amended **C8**: for each fetched row the processor fails with the
missing-PK error exactly when the number of collected PK values differs from
the number of PK columns; it fails with the null-PK error exactly when the
collected PK values are the single null value (only possible for a
single-column PK); otherwise, it is not rejected for PK reasons - the call can
only succeed or hit the row cap. -/
theorem processRows_pk_checks (g : Graph) (tableName : String)
    (fieldNames : List String) (values : List Value) (force : Bool)
    (maxRows : Nat) (st : TraversalState) :
    ((pkValuesOf (g.getPrimaryKeyColumns tableName) fieldNames values).length
        ≠ (g.getPrimaryKeyColumns tableName).length →
      processRows g tableName fieldNames [values] force maxRows st
        = Except.error (pkMissingMsg tableName)) ∧
    ((pkValuesOf (g.getPrimaryKeyColumns tableName) fieldNames values).length
        = (g.getPrimaryKeyColumns tableName).length →
      pkValuesOf (g.getPrimaryKeyColumns tableName) fieldNames values
        = [Value.vnull] →
      processRows g tableName fieldNames [values] force maxRows st
        = Except.error (pkNullMsg tableName)) ∧
    ((pkValuesOf (g.getPrimaryKeyColumns tableName) fieldNames values).length
        = (g.getPrimaryKeyColumns tableName).length →
      pkValuesOf (g.getPrimaryKeyColumns tableName) fieldNames values
        ≠ [Value.vnull] →
      (∃ st', processRows g tableName fieldNames [values] force maxRows st
          = Except.ok st') ∨
      processRows g tableName fieldNames [values] force maxRows st
        = Except.error (rowLimitMsg maxRows)) := by
  refine ⟨?_, ?_, ?_⟩
  · intro hne
    unfold processRows
    simp only [processLoop, if_pos hne]
  · intro hlen hnullv
    have hnn : ¬ ((pkValuesOf (g.getPrimaryKeyColumns tableName) fieldNames
        values).length ≠ (g.getPrimaryKeyColumns tableName).length) :=
      fun hc => hc hlen
    have hkey : keyOfPkValues (pkValuesOf (g.getPrimaryKeyColumns tableName)
        fieldNames values) = PKKey.single Value.vnull := by
      rw [hnullv]; rfl
    unfold processRows
    simp only [processLoop, if_neg hnn, if_pos hkey]
  · intro hlen hnullv
    have hnn : ¬ ((pkValuesOf (g.getPrimaryKeyColumns tableName) fieldNames
        values).length ≠ (g.getPrimaryKeyColumns tableName).length) :=
      fun hc => hc hlen
    have hkey : keyOfPkValues (pkValuesOf (g.getPrimaryKeyColumns tableName)
        fieldNames values) ≠ PKKey.single Value.vnull := by
      intro hk
      apply hnullv
      unfold keyOfPkValues at hk
      cases hv : pkValuesOf (g.getPrimaryKeyColumns tableName) fieldNames values with
      | nil => rw [hv] at hk; exact absurd hk (by simp)
      | cons v vs =>
        cases vs with
        | nil =>
          rw [hv] at hk
          simp at hk
          rw [hk]
        | cons v2 vs2 => rw [hv] at hk; exact absurd hk (by simp)
    unfold processRows
    simp only [processLoop, if_neg hnn, if_neg hkey]
    by_cases hmem : keyOfPkValues (pkValuesOf (g.getPrimaryKeyColumns tableName)
        fieldNames values) ∈ lookupD st.visitedRows tableName []
    · rw [if_pos hmem]
      exact Or.inl ⟨_, rfl⟩
    · rw [if_neg hmem]
      by_cases hlim : (!force && decide (st.rowCount + 1 > maxRows)) = true
      · rw [if_pos hlim]
        exact Or.inr rfl
      · rw [if_neg hlim]
        exact Or.inl ⟨_, rfl⟩

/-- Graph for the composite-PK example: table `t` with PK `(a, b)`. -/
def gComp : Graph := ⟨[], [], [("t", ["a", "b"])]⟩

/-- Counterexample to **C8** as stated: a row of a composite-PK table whose
first PK component is the null marker is accepted (the processor stores it
under the rendered key `[<nil> x]`), instead of failing. -/
theorem processRows_composite_null_accepted :
    processRows gComp "t" ["a", "b"] [[Value.vnull, Value.vstr "x"]] false 10
        initialState
      = Except.ok
          ⟨[("t", [PKKey.comp "[<nil> x]"])],
           [("t", [[("a", Value.vnull), ("b", Value.vstr "x")]])], 1⟩ := by
  rfl

/-- Witness for the amended **C8**: with PK `(a, b)` and a row exposing only
column `a`, one PK value is collected against two PK columns and the call
fails with the missing-PK error; and a single-column-PK row whose PK value is
null fails with the null-PK error. -/
theorem processRows_pk_checks_witness :
    ((pkValuesOf (gComp.getPrimaryKeyColumns "t") ["a"] [Value.vint 1]).length
        ≠ (gComp.getPrimaryKeyColumns "t").length ∧
      processRows gComp "t" ["a"] [[Value.vint 1]] false 10 initialState
        = Except.error (pkMissingMsg "t")) ∧
    ((pkValuesOf (gEx.getPrimaryKeyColumns "t") ["id"] [Value.vnull]).length
        = (gEx.getPrimaryKeyColumns "t").length ∧
      processRows gEx "t" ["id"] [[Value.vnull]] false 10 initialState
        = Except.error (pkNullMsg "t")) :=
  ⟨⟨by decide,
    (processRows_pk_checks gComp "t" ["a"] [Value.vint 1] false 10
        initialState).1 (by decide)⟩,
   ⟨by decide,
    (processRows_pk_checks gEx "t" ["id"] [Value.vnull] false 10
        initialState).2.1 (by decide) (by decide)⟩⟩

end PgRocket

namespace PgRocket

/-! ## `Graph.TopologicalSort` (internal/graph/topo.go)

Kahn's algorithm.  The Go maps `inDegree`/`adjList` become functions (reads
of missing keys default to the zero value, as in Go); `queue`/`result` are
lists.  The `for` loop becomes fuel recursion: each iteration pops one queue
element, and the total number of pushes is at most `2 * |tables|` (at most
`|tables|` initial pushes, and each node's in-degree - which only ever
decreases - passes through zero at most once), so fuel `2*|tables| + 1`
never runs out; the fuel-exhaustion branch returns `none`, as does the
cycle-error branch, matching the function's single error result. -/

/-- `tableSet` membership. -/
def tableSetOf (tables : List String) (t : String) : Bool := decide (t ∈ tables)

/-- The edge-construction loop body (topo.go lines 22-33) for one table:
walk its parent FKs, skip self-references and parents outside the set,
otherwise append the table to the parent's adjacency and bump the table's
in-degree. -/
def addEdges (full : List String) (g : Graph)
    (acc : (String → List String) × (String → Int)) (table : String) :
    (String → List String) × (String → Int) :=
  (g.getParents table).foldl
    (fun acc2 fk =>
      if fk.parentTable = table then acc2
      else if tableSetOf full fk.parentTable then
        (fun t => if t = fk.parentTable then acc2.1 t ++ [table] else acc2.1 t,
         fun t => if t = table then acc2.2 t + 1 else acc2.2 t)
      else acc2)
    acc

/-- `adjList` and `inDegree` after the construction loops. -/
def buildGraphData (g : Graph) (tables : List String) :
    (String → List String) × (String → Int) :=
  tables.foldl (addEdges tables g) (fun _ => [], fun _ => 0)

/-- The Kahn loop (topo.go lines 46-61). -/
def kahnLoop (adj : String → List String) :
    Nat → List String → (String → Int) → List String → Option (List String)
  | _, [], _, result => some result
  | 0, _ :: _, _, _ => none
  | fuel + 1, current :: rest, inDeg, result =>
    let children := sortStrings (adj current)
    let step := children.foldl
      (fun (p : (String → Int) × List String) child =>
        (fun t => if t = child then p.1 child - 1 else p.1 t,
         if p.1 child - 1 = 0 then sortStrings (p.2 ++ [child]) else p.2))
      (inDeg, rest)
    kahnLoop adj fuel step.2 step.1 (result ++ [current])

/-- `Graph.TopologicalSort`: build degrees and adjacency, seed the queue with
the sorted zero-degree tables, run the loop, and fail (`none`, the Go cycle
error) unless every table was emitted. -/
def topologicalSort (g : Graph) (tables : List String) : Option (List String) :=
  match kahnLoop (buildGraphData g tables).1 (2 * tables.length + 1)
      (sortStrings (tables.filter (fun t => decide ((buildGraphData g tables).2 t = 0))))
      (buildGraphData g tables).2 [] with
  | none => none
  | some result => if result.length = tables.length then some result else none

/-- The adjacency entries one table contributes to `adjList[p]`: one copy of
the table per parent FK that survives the two skips and points at `p`. -/
def contribAdj (g : Graph) (ts : String → Bool) (table p : String) : List String :=
  ((g.getParents table).filter
    (fun fk => decide (fk.parentTable ≠ table) && ts fk.parentTable
      && decide (fk.parentTable = p))).map (fun _ => table)

/-- The in-degree one table receives: its surviving parent FKs. -/
def contribDeg (g : Graph) (ts : String → Bool) (table : String) : Int :=
  (((g.getParents table).filter
    (fun fk => decide (fk.parentTable ≠ table) && ts fk.parentTable)).length : Int)

theorem foldFk_char (table : String) (ts : String → Bool) :
    ∀ (fks : List ForeignKey) (acc : (String → List String) × (String → Int)),
    fks.foldl
      (fun (acc2 : (String → List String) × (String → Int)) fk =>
        if fk.parentTable = table then acc2
        else if ts fk.parentTable then
          (fun t => if t = fk.parentTable then acc2.1 t ++ [table] else acc2.1 t,
           fun t => if t = table then acc2.2 t + 1 else acc2.2 t)
        else acc2)
      acc
    = (fun p => acc.1 p ++
        ((fks.filter (fun fk => decide (fk.parentTable ≠ table) && ts fk.parentTable
            && decide (fk.parentTable = p))).map (fun _ => table)),
       fun c => if c = table
         then acc.2 c + ((fks.filter (fun fk => decide (fk.parentTable ≠ table)
            && ts fk.parentTable)).length : Int)
         else acc.2 c) := by
  intro fks
  induction fks with
  | nil =>
    intro acc
    refine Prod.ext ?_ ?_ <;> funext x <;> simp
  | cons fk rest ih =>
    intro acc
    simp only [List.foldl_cons]
    by_cases hself : fk.parentTable = table
    · rw [if_pos hself]
      rw [ih acc]
      have hfilt1 : ∀ p, List.filter (fun fk' => decide (fk'.parentTable ≠ table)
          && ts fk'.parentTable && decide (fk'.parentTable = p)) (fk :: rest)
          = List.filter (fun fk' => decide (fk'.parentTable ≠ table)
            && ts fk'.parentTable && decide (fk'.parentTable = p)) rest := by
        intro p
        simp [List.filter_cons, hself]
      have hfilt2 : List.filter (fun fk' => decide (fk'.parentTable ≠ table)
          && ts fk'.parentTable) (fk :: rest)
          = List.filter (fun fk' => decide (fk'.parentTable ≠ table)
            && ts fk'.parentTable) rest := by
        simp [List.filter_cons, hself]
      refine Prod.ext ?_ ?_ <;> funext x <;> simp only [hfilt1, hfilt2]
    · rw [if_neg hself]
      by_cases hts : ts fk.parentTable = true
      · rw [if_pos hts]
        rw [ih]
        have hfilt1 : ∀ p, List.filter (fun fk' => decide (fk'.parentTable ≠ table)
            && ts fk'.parentTable && decide (fk'.parentTable = p)) (fk :: rest)
            = (if fk.parentTable = p then [fk] else [])
              ++ List.filter (fun fk' => decide (fk'.parentTable ≠ table)
                && ts fk'.parentTable && decide (fk'.parentTable = p)) rest := by
          intro p
          by_cases hp : fk.parentTable = p
          · subst hp
            simp [List.filter_cons, hself, hts]
          · simp [List.filter_cons, hself, hts, hp]
        have hfilt2 : List.filter (fun fk' => decide (fk'.parentTable ≠ table)
            && ts fk'.parentTable) (fk :: rest)
            = fk :: List.filter (fun fk' => decide (fk'.parentTable ≠ table)
              && ts fk'.parentTable) rest := by
          simp [List.filter_cons, hself, hts]
        refine Prod.ext ?_ ?_
        · funext p
          simp only [hfilt1]
          by_cases hp : fk.parentTable = p
          · subst hp
            simp [List.append_assoc]
          · have hpf : ¬ p = fk.parentTable := fun hh => hp hh.symm
            simp [hp, hpf]
        · funext c
          simp only [hfilt2, List.length_cons]
          by_cases hc : c = table
          · subst hc
            simp
            omega
          · simp [hc]
      · rw [if_neg hts]
        rw [ih acc]
        have hfilt1 : ∀ p, List.filter (fun fk' => decide (fk'.parentTable ≠ table)
            && ts fk'.parentTable && decide (fk'.parentTable = p)) (fk :: rest)
            = List.filter (fun fk' => decide (fk'.parentTable ≠ table)
              && ts fk'.parentTable && decide (fk'.parentTable = p)) rest := by
          intro p
          simp [List.filter_cons, hts]
        have hfilt2 : List.filter (fun fk' => decide (fk'.parentTable ≠ table)
            && ts fk'.parentTable) (fk :: rest)
            = List.filter (fun fk' => decide (fk'.parentTable ≠ table)
              && ts fk'.parentTable) rest := by
          simp [List.filter_cons, hts]
        refine Prod.ext ?_ ?_ <;> funext x <;> simp only [hfilt1, hfilt2]

theorem addEdges_char (full : List String) (g : Graph)
    (acc : (String → List String) × (String → Int)) (table : String) :
    addEdges full g acc table
      = (fun p => acc.1 p ++ contribAdj g (tableSetOf full) table p,
         fun c => if c = table
           then acc.2 c + contribDeg g (tableSetOf full) table
           else acc.2 c) := by
  unfold addEdges contribAdj contribDeg
  exact foldFk_char table (tableSetOf full) (g.getParents table) acc

end PgRocket

namespace PgRocket

theorem foldl_addEdges_char (g : Graph) (full : List String) :
    ∀ (ts0 : List String) (acc : (String → List String) × (String → Int)),
    ts0.foldl (addEdges full g) acc
      = (fun p => acc.1 p
          ++ (ts0.map (fun t => contribAdj g (tableSetOf full) t p)).flatten,
         fun c => acc.2 c
          + (List.count c ts0 : Int) * contribDeg g (tableSetOf full) c) := by
  intro ts0
  induction ts0 with
  | nil =>
    intro acc
    refine Prod.ext ?_ ?_ <;> funext x <;> simp
  | cons t ts ih =>
    intro acc
    simp only [List.foldl_cons]
    rw [addEdges_char, ih]
    refine Prod.ext ?_ ?_
    · funext p
      simp [List.append_assoc]
    · funext c
      simp only [List.count_cons, List.map_cons]
      by_cases hc : c = t
      · subst hc
        simp only [if_pos rfl, beq_self_eq_true, if_true]
        push_cast
        ring
      · have hct : ¬ (t == c) = true := by
          simp
          exact fun hh => hc hh.symm
        simp only [if_neg hc, hct, if_false]
        push_cast
        ring

theorem buildGraphData_adj (g : Graph) (tables : List String) (p : String) :
    (buildGraphData g tables).1 p
      = (tables.map (fun t => contribAdj g (tableSetOf tables) t p)).flatten := by
  unfold buildGraphData
  rw [foldl_addEdges_char]
  simp

theorem buildGraphData_deg (g : Graph) (tables : List String) (c : String) :
    (buildGraphData g tables).2 c
      = (List.count c tables : Int) * contribDeg g (tableSetOf tables) c := by
  unfold buildGraphData
  rw [foldl_addEdges_char]
  simp

theorem kahnLoop_congr (adj adj' : String → List String)
    (h : ∀ t, sortStrings (adj t) = sortStrings (adj' t)) :
    ∀ (fuel : Nat) (queue : List String) (inDeg : String → Int)
      (result : List String),
    kahnLoop adj fuel queue inDeg result = kahnLoop adj' fuel queue inDeg result := by
  intro fuel
  induction fuel with
  | zero =>
    intro queue inDeg result
    cases queue <;> rfl
  | succ n ih =>
    intro queue inDeg result
    cases queue with
    | nil => rfl
    | cons current rest =>
      simp only [kahnLoop]
      rw [h current]
      exact ih _ _ _

/-- **C9.** `TopologicalSort` is deterministic: permuting the input table
list (any two list presentations of the same set) leaves the returned result
- success value and failure alike - unchanged; the output is a function of
the input set and the graph only. -/
theorem topologicalSort_deterministic (g : Graph) (tables tables' : List String)
    (hperm : List.Perm tables tables') :
    topologicalSort g tables = topologicalSort g tables' := by
  have hts : tableSetOf tables = tableSetOf tables' := by
    funext t
    exact decide_eq_decide.mpr hperm.mem_iff
  have hdeg : (buildGraphData g tables).2 = (buildGraphData g tables').2 := by
    funext c
    rw [buildGraphData_deg, buildGraphData_deg, hts, hperm.count_eq]
  have hadj : ∀ p, sortStrings ((buildGraphData g tables).1 p)
      = sortStrings ((buildGraphData g tables').1 p) := by
    intro p
    apply sortStrings_eq_of_perm
    rw [buildGraphData_adj, buildGraphData_adj, hts]
    exact (hperm.map _).flatten
  have hlen : tables.length = tables'.length := hperm.length_eq
  unfold topologicalSort
  rw [hdeg, hlen, kahnLoop_congr _ _ hadj]
  have hqueue : sortStrings (List.filter
        (fun t => decide ((buildGraphData g tables').2 t = 0)) tables)
      = sortStrings (List.filter
        (fun t => decide ((buildGraphData g tables').2 t = 0)) tables') := by
    exact sortStrings_eq_of_perm (hperm.filter _)
  rw [hqueue]

/-- Witness for **C9**: two list orders of the same two-table set sort to the
same sequence. -/
theorem topologicalSort_deterministic_witness :
    List.Perm ["users", "orgs"] ["orgs", "users"] ∧
    topologicalSort
        ⟨[("users", [⟨"users", "org_id", "orgs", "id"⟩])], [], []⟩
        ["users", "orgs"]
      = topologicalSort
        ⟨[("users", [⟨"users", "org_id", "orgs", "id"⟩])], [], []⟩
        ["orgs", "users"] :=
  ⟨by decide,
   topologicalSort_deterministic
     ⟨[("users", [⟨"users", "org_id", "orgs", "id"⟩])], [], []⟩
     ["users", "orgs"] ["orgs", "users"] (by decide)⟩

end PgRocket

namespace PgRocket

/-- Number of FK edges `current → c` in the induced subgraph (the occurrences
of `c` the loop will decrement when popping `current`). -/
def mEdge (g : Graph) (tables : List String) (current c : String) : Nat :=
  ((g.getParents c).filter
    (fun fk => decide (fk.parentTable ≠ c) && tableSetOf tables fk.parentTable
      && decide (fk.parentTable = current))).length

/-- Number of induced FK edges into `c` whose parent has not been emitted. -/
def inducedParentCount (g : Graph) (tables res : List String) (c : String) : Nat :=
  ((g.getParents c).filter
    (fun fk => decide (fk.parentTable ≠ c) && tableSetOf tables fk.parentTable
      && decide (fk.parentTable ∉ res))).length

theorem count_map_const {α : Type} (t c : String) (l : List α) :
    List.count c (l.map (fun _ => t)) = if t = c then l.length else 0 := by
  induction l with
  | nil => simp
  | cons x xs ih =>
    simp only [List.map_cons, List.count_cons, ih]
    by_cases h : t = c
    · simp [h]
    · simp [h]

theorem count_adj_aux (g : Graph) (ts : String → Bool) (current c : String) :
    ∀ l : List String,
    List.count c ((l.map (fun t => contribAdj g ts t current)).flatten)
      = List.count c l *
        ((g.getParents c).filter
          (fun fk => decide (fk.parentTable ≠ c) && ts fk.parentTable
            && decide (fk.parentTable = current))).length := by
  intro l
  induction l with
  | nil => simp
  | cons t rest ih =>
    simp only [List.map_cons, List.flatten_cons, List.count_append, ih,
      List.count_cons]
    unfold contribAdj
    rw [count_map_const]
    by_cases h : t = c
    · subst h
      simp [Nat.succ_mul, Nat.add_comm]
    · have hc : ¬ (t == c) = true := by simp [h]
      simp [h, hc]

theorem count_adj (g : Graph) (tables : List String) (current c : String) :
    List.count c ((buildGraphData g tables).1 current)
      = List.count c tables * mEdge g tables current c := by
  rw [buildGraphData_adj]
  exact count_adj_aux g (tableSetOf tables) current c tables

/-- Membership facts about adjacency entries. -/
theorem mem_adj (g : Graph) (tables : List String) {current c : String}
    (h : c ∈ (buildGraphData g tables).1 current) :
    c ∈ tables ∧ c ≠ current ∧ 1 ≤ mEdge g tables current c := by
  have hcount : 0 < List.count c ((buildGraphData g tables).1 current) :=
    List.count_pos_iff.mpr h
  rw [count_adj] at hcount
  have htab : 0 < List.count c tables := by
    by_contra hc
    simp [Nat.eq_zero_of_not_pos hc] at hcount
  have hm : 0 < mEdge g tables current c := by
    by_contra hc
    simp [Nat.eq_zero_of_not_pos hc] at hcount
  refine ⟨List.count_pos_iff.mp htab, ?_, hm⟩
  unfold mEdge at hm
  obtain ⟨fk, hfk⟩ := List.exists_mem_of_length_pos hm
  have := List.mem_filter.mp hfk
  simp only [Bool.and_eq_true, decide_eq_true_eq] at this
  obtain ⟨-, ⟨hne, -⟩, hpar⟩ := this
  intro hcc
  exact hne (hpar.trans hcc.symm)

theorem countP_split {α : Type} (p q : α → Bool) (l : List α) :
    l.countP p = l.countP (fun a => p a && q a) + l.countP (fun a => p a && !q a) := by
  induction l with
  | nil => simp
  | cons x xs ih =>
    by_cases hp : p x = true
    · by_cases hq : q x = true
      · simp [List.countP_cons, hp, hq, ih]
        omega
      · simp [List.countP_cons, hp, hq, ih]
        omega
    · simp [List.countP_cons, hp, ih]

/-- Extending the emitted prefix by `current` lowers each in-degree count by
the decremented edge multiplicity. -/
theorem ipc_extend (g : Graph) (tables res : List String) {current : String}
    (hcur : current ∉ res) (c : String) :
    inducedParentCount g tables res c
      = inducedParentCount g tables (res ++ [current]) c
        + mEdge g tables current c := by
  unfold inducedParentCount mEdge
  rw [← List.countP_eq_length_filter, ← List.countP_eq_length_filter,
    ← List.countP_eq_length_filter]
  rw [countP_split
    (fun fk => decide (fk.parentTable ≠ c) && tableSetOf tables fk.parentTable
      && decide (fk.parentTable ∉ res))
    (fun fk => decide (fk.parentTable = current)) (g.getParents c)]
  rw [Nat.add_comm]
  have key : ∀ p : String, decide (p ∉ res ++ [current])
      = (decide (p ∉ res) && !decide (p = current)) := by
    intro p
    by_cases hr : p ∈ res <;> by_cases hc2 : p = current <;>
      simp [hr, hc2, List.mem_append]
  congr 1
  · apply List.countP_congr
    intro fk _
    rw [key fk.parentTable, ← Bool.and_assoc]
  · apply List.countP_congr
    intro fk _
    by_cases hc2 : fk.parentTable = current
    · have hr : fk.parentTable ∉ res := by rw [hc2]; exact hcur
      simp only [hc2]
      simp [hcur]
    · simp [hc2]

/-- `inducedParentCount _ _ res c = 0` says every induced parent of `c` has
been emitted. -/
theorem ipc_eq_zero_iff (g : Graph) (tables res : List String) (c : String) :
    inducedParentCount g tables res c = 0 ↔
      ∀ fk ∈ g.getParents c, fk.parentTable ≠ c → fk.parentTable ∈ tables →
        fk.parentTable ∈ res := by
  unfold inducedParentCount
  rw [← List.countP_eq_length_filter, List.countP_eq_zero]
  constructor
  · intro h fk hfk hne htab
    by_contra hres
    apply h fk hfk
    simp only [Bool.and_eq_true, decide_eq_true_eq]
    exact ⟨⟨hne, by unfold tableSetOf; simpa using htab⟩, hres⟩
  · intro h fk hfk hpred
    simp only [Bool.and_eq_true, decide_eq_true_eq] at hpred
    obtain ⟨⟨hne, hts⟩, hnr⟩ := hpred
    exact hnr (h fk hfk hne (by unfold tableSetOf at hts; simpa using hts))

end PgRocket

namespace PgRocket

/-- Behaviour of the child-processing fold of one Kahn iteration: every
occurrence of a child decrements its degree once; the queue stays sorted and
gains exactly (one copy of) each child whose degree passes through zero. -/
theorem kahnFold_spec :
    ∀ (children : List String) (inDeg0 : String → Int) (queue0 : List String),
      queue0.Sorted LeS →
      (∀ c, (children.foldl
          (fun (p : (String → Int) × List String) child =>
            (fun t => if t = child then p.1 child - 1 else p.1 t,
             if p.1 child - 1 = 0 then sortStrings (p.2 ++ [child]) else p.2))
          (inDeg0, queue0)).1 c
        = inDeg0 c - (List.count c children : Int)) ∧
      (children.foldl
          (fun (p : (String → Int) × List String) child =>
            (fun t => if t = child then p.1 child - 1 else p.1 t,
             if p.1 child - 1 = 0 then sortStrings (p.2 ++ [child]) else p.2))
          (inDeg0, queue0)).2.Sorted LeS ∧
      ∃ pushed : List String, pushed.Nodup ∧
        List.Perm (children.foldl
          (fun (p : (String → Int) × List String) child =>
            (fun t => if t = child then p.1 child - 1 else p.1 t,
             if p.1 child - 1 = 0 then sortStrings (p.2 ++ [child]) else p.2))
          (inDeg0, queue0)).2 (queue0 ++ pushed) ∧
        (∀ c, c ∈ pushed ↔ c ∈ children ∧ 1 ≤ inDeg0 c ∧
          inDeg0 c ≤ (List.count c children : Int)) := by
  intro children
  induction children with
  | nil =>
    intro inDeg0 queue0 hsort
    refine ⟨fun c => by simp, hsort, [], List.nodup_nil, by simp, fun c => by simp⟩
  | cons child cs ih =>
    intro inDeg0 queue0 hsort
    simp only [List.foldl_cons]
    by_cases hz : inDeg0 child - 1 = 0
    · have hq1 : (if inDeg0 child - 1 = 0 then sortStrings (queue0 ++ [child])
          else queue0) = sortStrings (queue0 ++ [child]) := if_pos hz
      have hs1 : (sortStrings (queue0 ++ [child])).Sorted LeS := sortStrings_sorted _
      obtain ⟨ihdeg, ihsort, pushed, ihnd, ihperm, ihiff⟩ :=
        ih (fun t => if t = child then inDeg0 child - 1 else inDeg0 t)
          (sortStrings (queue0 ++ [child])) hs1
      rw [hq1]
      refine ⟨?_, ihsort, child :: pushed, ?_, ?_, ?_⟩
      · intro c
        rw [ihdeg c]
        by_cases hc : c = child
        · subst hc
          simp [List.count_cons]
          omega
        · have hcc : ¬ (child == c) = true := by simp; exact fun hh => hc hh.symm
          simp [hc, List.count_cons, hcc]
      · refine List.nodup_cons.mpr ⟨?_, ihnd⟩
        intro hmem
        have := (ihiff child).mp hmem
        simp at this
        omega
      · refine List.Perm.trans ihperm ?_
        refine List.Perm.trans (List.Perm.append_right pushed
          (List.Perm.trans (sortStrings_perm _) (List.Perm.refl _))) ?_
        simp only [List.append_assoc, List.singleton_append]
        exact List.Perm.refl _
      · intro c
        by_cases hc : c = child
        · subst hc
          have h1 : inDeg0 c = 1 := by omega
          have hcpos : (1 : Int) ≤ (List.count c (c :: cs) : Int) := by
            have := List.count_pos_iff.mpr (List.mem_cons_self c cs)
            omega
          simp only [List.mem_cons, true_or, true_iff]
          exact ⟨trivial, by omega, by omega⟩
        · have hne : ¬ (child == c) = true := by simp; exact fun hh => hc hh.symm
          simp only [List.mem_cons, hc, false_or]
          rw [ihiff c]
          have hdeq : (if c = child then inDeg0 child - 1 else inDeg0 c) = inDeg0 c :=
            if_neg hc
          rw [hdeq]
          have hcount : List.count c (child :: cs) = List.count c cs := by
            simp [List.count_cons, hne]
          rw [hcount]
    · have hq1 : (if inDeg0 child - 1 = 0 then sortStrings (queue0 ++ [child])
          else queue0) = queue0 := if_neg hz
      obtain ⟨ihdeg, ihsort, pushed, ihnd, ihperm, ihiff⟩ :=
        ih (fun t => if t = child then inDeg0 child - 1 else inDeg0 t) queue0 hsort
      rw [hq1]
      refine ⟨?_, ihsort, pushed, ihnd, ihperm, ?_⟩
      · intro c
        rw [ihdeg c]
        by_cases hc : c = child
        · subst hc
          simp [List.count_cons]
          omega
        · have hcc : ¬ (child == c) = true := by simp; exact fun hh => hc hh.symm
          simp [hc, List.count_cons, hcc]
      · intro c
        rw [ihiff c]
        by_cases hc : c = child
        · subst hc
          have hre : (if c = c then inDeg0 c - 1 else inDeg0 c) = inDeg0 c - 1 :=
            if_pos rfl
          rw [hre]
          have hpos : (List.count c (c :: cs) : Int)
              = (List.count c cs : Int) + 1 := by
            simp [List.count_cons]
          constructor
          · rintro ⟨h1, h2, h3⟩
            exact ⟨List.mem_cons_self _ _, by omega, by rw [hpos]; omega⟩
          · rintro ⟨_, h2, h3⟩
            rw [hpos] at h3
            have hcnt : (1 : Int) ≤ (List.count c cs : Int) := by omega
            have hcnt2 : 0 < List.count c cs := by exact_mod_cast hcnt
            exact ⟨List.count_pos_iff.mp hcnt2, by omega, by omega⟩
        · have hne : ¬ (child == c) = true := by simp; exact fun hh => hc hh.symm
          have hdeq : (if c = child then inDeg0 child - 1 else inDeg0 c) = inDeg0 c :=
            if_neg hc
          rw [hdeq]
          have hcount : List.count c (child :: cs) = List.count c cs := by
            simp [List.count_cons, hne]
          rw [hcount]
          simp only [List.mem_cons, hc, false_or]

end PgRocket

namespace PgRocket

/-- Emission-order invariant: every emitted table's induced parents appear
strictly earlier in the emitted prefix. -/
def PrefixClosed (g : Graph) (tables res : List String) : Prop :=
  ∀ (i : Nat) (hi : i < res.length), ∀ fk ∈ g.getParents (res.get ⟨i, hi⟩),
    fk.parentTable ∈ tables → fk.parentTable ≠ res.get ⟨i, hi⟩ →
    fk.parentTable ∈ res.take i

theorem prefixClosed_mem {g : Graph} {tables res : List String}
    (h : PrefixClosed g tables res) {x : String} (hx : x ∈ res) :
    ∀ fk ∈ g.getParents x, fk.parentTable ∈ tables → fk.parentTable ≠ x →
      fk.parentTable ∈ res := by
  obtain ⟨i, hi, hget⟩ := List.mem_iff_getElem.mp hx
  intro fk hfk htab hne
  have := h i hi fk (by rw [List.get_eq_getElem, hget]; exact hfk) htab
    (by rw [List.get_eq_getElem, hget]; exact hne)
  exact List.take_subset i res this

theorem prefixClosed_extend {g : Graph} {tables res : List String}
    {current : String} (hpc : PrefixClosed g tables res)
    (hcur : ∀ fk ∈ g.getParents current, fk.parentTable ∈ tables →
      fk.parentTable ≠ current → fk.parentTable ∈ res) :
    PrefixClosed g tables (res ++ [current]) := by
  intro i hi fk hfk htab hne
  simp only [List.length_append, List.length_singleton] at hi
  by_cases hlt : i < res.length
  · have hget : (res ++ [current]).get ⟨i, by simp; omega⟩ = res.get ⟨i, hlt⟩ := by
      simp [List.get_eq_getElem, List.getElem_append_left hlt]
    rw [List.get_eq_getElem] at hget
    rw [List.take_append_of_le_length (by omega)]
    apply hpc i hlt fk _ htab
    · intro hcc
      apply hne
      simp only [List.get_eq_getElem] at hcc ⊢
      rw [List.getElem_append_left hlt]
      exact hcc
    · simp only [List.get_eq_getElem] at hfk ⊢
      rw [List.getElem_append_left hlt] at hfk
      exact hfk
  · have hieq : i = res.length := by omega
    subst hieq
    have hget : (res ++ [current]).get ⟨res.length, by simp⟩ = current := by
      simp [List.get_eq_getElem, List.getElem_append_right (Nat.le_refl _)]
    rw [hget] at hfk hne
    rw [List.take_left]
    exact hcur fk hfk htab hne

/-- The loop invariant of the Kahn loop. -/
def KahnInv (g : Graph) (tables queue : List String) (inDeg : String → Int)
    (res : List String) : Prop :=
  res.Nodup ∧ queue.Nodup ∧ (∀ x ∈ queue, x ∉ res) ∧
  (∀ x ∈ res, x ∈ tables) ∧ (∀ x ∈ queue, x ∈ tables) ∧
  (∀ c ∈ tables, inDeg c = (inducedParentCount g tables res c : Int)) ∧
  (∀ x ∈ queue, inducedParentCount g tables res x = 0) ∧
  PrefixClosed g tables res

theorem kahnLoop_sound (g : Graph) (tables : List String) (hnd : tables.Nodup) :
    ∀ (fuel : Nat) (queue : List String) (inDeg : String → Int)
      (res res' : List String),
      KahnInv g tables queue inDeg res → queue.Sorted LeS →
      kahnLoop (buildGraphData g tables).1 fuel queue inDeg res = some res' →
      (∀ x ∈ res', x ∈ tables) ∧ res'.Nodup ∧ PrefixClosed g tables res' := by
  intro fuel
  induction fuel with
  | zero =>
    intro queue inDeg res res' hinv hsort h
    cases queue with
    | nil =>
      simp only [kahnLoop, Option.some.injEq] at h
      subst h
      exact ⟨hinv.2.2.2.1, hinv.1, hinv.2.2.2.2.2.2.2⟩
    | cons a rest => simp [kahnLoop] at h
  | succ n ih =>
    intro queue inDeg res res' hinv hsort h
    cases queue with
    | nil =>
      simp only [kahnLoop, Option.some.injEq] at h
      subst h
      exact ⟨hinv.2.2.2.1, hinv.1, hinv.2.2.2.2.2.2.2⟩
    | cons current rest =>
      obtain ⟨hndres, hndq, hdisj, hres_tab, hq_tab, hdeg, hready, hpc⟩ := hinv
      have hcur_tab : current ∈ tables := hq_tab current (List.mem_cons_self _ _)
      have hcur_nres : current ∉ res := hdisj current (List.mem_cons_self _ _)
      have hcur_ready : inducedParentCount g tables res current = 0 :=
        hready current (List.mem_cons_self _ _)
      have hcur_nrest : current ∉ rest := (List.nodup_cons.mp hndq).1
      have hndrest : rest.Nodup := (List.nodup_cons.mp hndq).2
      have hrest_sorted : rest.Sorted LeS := hsort.of_cons
      obtain ⟨hfdeg, hfsorted, pushed, hpnd, hpperm, hpiff⟩ :=
        kahnFold_spec (sortStrings ((buildGraphData g tables).1 current)) inDeg
          rest hrest_sorted
      have hcnt : ∀ c, List.count c
            (sortStrings ((buildGraphData g tables).1 current))
          = List.count c tables * mEdge g tables current c := by
        intro c
        rw [(sortStrings_perm _).count_eq, count_adj]
      have hcnt_tab : ∀ c ∈ tables, List.count c
            (sortStrings ((buildGraphData g tables).1 current))
          = mEdge g tables current c := by
        intro c hc
        rw [hcnt c, List.count_eq_one_of_mem hnd hc, Nat.one_mul]
      have hmem_children : ∀ c ∈ sortStrings ((buildGraphData g tables).1 current),
          c ∈ tables ∧ c ≠ current ∧ 1 ≤ mEdge g tables current c := by
        intro c hc
        exact mem_adj g tables ((sortStrings_perm _).mem_iff.mp hc)
      -- the parents of current are all emitted
      have hcur_par : ∀ fk ∈ g.getParents current, fk.parentTable ∈ tables →
          fk.parentTable ≠ current → fk.parentTable ∈ res := by
        intro fk hfk htab hne
        exact (ipc_eq_zero_iff g tables res current).mp hcur_ready fk hfk hne htab
      simp only [kahnLoop] at h
      refine ih _ _ (res ++ [current]) res' ?_ hfsorted h
      refine ⟨?_, ?_, ?_, ?_, ?_, ?_, ?_, ?_⟩
      · rw [List.nodup_append]
        exact ⟨hndres, List.nodup_singleton _, by
          intro a ha hb
          rw [List.mem_singleton] at hb
          subst hb
          exact hcur_nres ha⟩
      · rw [hpperm.nodup_iff, List.nodup_append]
        refine ⟨hndrest, hpnd, ?_⟩
        intro a ha hb
        obtain ⟨hac, h1, h2⟩ := (hpiff a).mp hb
        have hatab : a ∈ tables := (hmem_children a hac).1
        have : inDeg a = (inducedParentCount g tables res a : Int) := hdeg a hatab
        have hzero : inducedParentCount g tables res a = 0 :=
          hready a (List.mem_cons_of_mem _ ha)
        rw [this, hzero] at h1
        simp at h1
      · intro x hx
        rw [hpperm.mem_iff, List.mem_append] at hx
        rw [List.mem_append, List.mem_singleton]
        rcases hx with hx | hx
        · rintro (hxr | hxc)
          · exact hdisj x (List.mem_cons_of_mem _ hx) hxr
          · exact hcur_nrest (hxc ▸ hx)
        · obtain ⟨hxc, h1, h2⟩ := (hpiff x).mp hx
          obtain ⟨hxtab, hxne, hm⟩ := hmem_children x hxc
          rintro (hxr | hxc2)
          · have := prefixClosed_mem hpc hxr
            have hz : inducedParentCount g tables res x = 0 :=
              (ipc_eq_zero_iff g tables res x).mpr
                (fun fk hfk hne htab => this fk hfk htab hne)
            rw [hdeg x hxtab, hz] at h1
            simp at h1
          · exact hxne hxc2
      · intro x hx
        rw [List.mem_append, List.mem_singleton] at hx
        rcases hx with hx | hx
        · exact hres_tab x hx
        · exact hx ▸ hcur_tab
      · intro x hx
        rw [hpperm.mem_iff, List.mem_append] at hx
        rcases hx with hx | hx
        · exact hq_tab x (List.mem_cons_of_mem _ hx)
        · exact (hmem_children x ((hpiff x).mp hx).1).1
      · intro c hc
        rw [hfdeg c, hdeg c hc, hcnt_tab c hc]
        have := ipc_extend g tables res hcur_nres c
        omega
      · intro x hx
        rw [hpperm.mem_iff, List.mem_append] at hx
        have hext := ipc_extend g tables res hcur_nres x
        rcases hx with hx | hx
        · have hz : inducedParentCount g tables res x = 0 :=
            hready x (List.mem_cons_of_mem _ hx)
          omega
        · obtain ⟨hxc, h1, h2⟩ := (hpiff x).mp hx
          obtain ⟨hxtab, hxne, hm⟩ := hmem_children x hxc
          rw [hdeg x hxtab] at h1 h2
          rw [hcnt_tab x hxtab] at h2
          omega
      · exact prefixClosed_extend hpc hcur_par

end PgRocket

namespace PgRocket

theorem kahnInit (g : Graph) (tables : List String) (hnd : tables.Nodup) :
    KahnInv g tables
      (sortStrings (tables.filter
        (fun t => decide ((buildGraphData g tables).2 t = 0))))
      (buildGraphData g tables).2 [] := by
  have hdeg0 : ∀ c ∈ tables, (buildGraphData g tables).2 c
      = (inducedParentCount g tables [] c : Int) := by
    intro c hc
    rw [buildGraphData_deg, List.count_eq_one_of_mem hnd hc]
    unfold contribDeg inducedParentCount
    have hfeq : List.filter
        (fun fk => decide (fk.parentTable ≠ c) && tableSetOf tables fk.parentTable)
        (g.getParents c)
        = List.filter
          (fun fk => decide (fk.parentTable ≠ c) && tableSetOf tables fk.parentTable
            && decide (fk.parentTable ∉ ([] : List String)))
          (g.getParents c) := by
      apply List.filter_congr
      intro fk _
      simp
    rw [hfeq]
    push_cast
    ring
  refine ⟨List.nodup_nil, ?_, ?_, ?_, ?_, hdeg0, ?_, ?_⟩
  · exact ((sortStrings_perm _).nodup_iff).mpr (hnd.filter _)
  · intro x _
    exact List.not_mem_nil x
  · intro x hx
    exact absurd hx (List.not_mem_nil x)
  · intro x hx
    exact (List.mem_filter.mp ((sortStrings_perm _).mem_iff.mp hx)).1
  · intro x hx
    have hx2 := (sortStrings_perm _).mem_iff.mp hx
    have := List.mem_filter.mp hx2
    have hxtab : x ∈ tables := this.1
    have hz : (buildGraphData g tables).2 x = 0 := by
      have := this.2
      simpa using this
    rw [hdeg0 x hxtab] at hz
    exact_mod_cast hz
  · intro i hi
    exact absurd hi (by simp)

/-- **C1.** Whenever `TopologicalSort` succeeds on a (duplicate-free) table
list, its result is a permutation of the input, and for every FK
`(child, parent)` with both endpoints in the set and `parent ≠ child`, the
parent table appears strictly before the child table in the result. -/
theorem topologicalSort_correct (g : Graph) (tables res : List String)
    (hnd : tables.Nodup)
    (h : topologicalSort g tables = some res) :
    List.Perm res tables ∧
    ∀ child ∈ tables, ∀ fk ∈ g.getParents child, fk.parentTable ∈ tables →
      fk.parentTable ≠ child →
      ∃ i j : Nat, i < j ∧ res[i]? = some fk.parentTable ∧ res[j]? = some child := by
  unfold topologicalSort at h
  cases hloop : kahnLoop (buildGraphData g tables).1 (2 * tables.length + 1)
      (sortStrings (tables.filter
        (fun t => decide ((buildGraphData g tables).2 t = 0))))
      (buildGraphData g tables).2 [] with
  | none => rw [hloop] at h; simp at h
  | some result =>
    rw [hloop] at h
    have h2 : (if result.length = tables.length then some result else none)
        = some res := h
    by_cases hlen : result.length = tables.length
    · rw [if_pos hlen] at h2
      simp only [Option.some.injEq] at h2
      subst h2
      obtain ⟨hsub, hndres, hpc⟩ :=
        kahnLoop_sound g tables hnd _ _ _ [] result
          (kahnInit g tables hnd) (sortStrings_sorted _) hloop
      have hperm : List.Perm result tables :=
        (List.Nodup.subperm hndres (fun x hx => hsub x hx)).perm_of_length_le
          (by omega)
      refine ⟨hperm, ?_⟩
      intro child hchild fk hfk htab hne
      have hchild_res : child ∈ result := hperm.mem_iff.mpr hchild
      obtain ⟨j, hj, hgetj⟩ := List.mem_iff_getElem.mp hchild_res
      have hpcj := hpc j hj fk
        (by rw [List.get_eq_getElem, hgetj]; exact hfk) htab
        (by rw [List.get_eq_getElem, hgetj]; exact hne)
      obtain ⟨i, hi, hgeti⟩ := List.mem_iff_getElem.mp hpcj
      have hilt : i < j := by
        have := hi
        rw [List.length_take] at this
        omega
      rw [List.getElem_take] at hgeti
      refine ⟨i, j, hilt, ?_, ?_⟩
      · rw [List.getElem?_eq_getElem (show i < result.length by omega)]
        exact congrArg some hgeti
      · rw [List.getElem?_eq_getElem hj]
        exact congrArg some hgetj
    · rw [if_neg hlen] at h2
      simp at h2

end PgRocket

namespace PgRocket

/-- Two-table example graph: `users` has an FK to `orgs`. -/
def gW : Graph := ⟨[("users", [⟨"users", "org_id", "orgs", "id"⟩])], [], []⟩

/-- Witness for **C1**: sorting `{users, orgs}` puts the parent first, and the
conclusion of the correctness theorem holds at that instance. -/
theorem topologicalSort_correct_witness :
    (["users", "orgs"] : List String).Nodup ∧
    topologicalSort gW ["users", "orgs"] = some ["orgs", "users"] ∧
    (List.Perm ["orgs", "users"] ["users", "orgs"] ∧
      ∀ child ∈ ["users", "orgs"], ∀ fk ∈ gW.getParents child,
        fk.parentTable ∈ ["users", "orgs"] → fk.parentTable ≠ child →
        ∃ i j : Nat, i < j ∧
          (["orgs", "users"] : List String)[i]? = some fk.parentTable ∧
          (["orgs", "users"] : List String)[j]? = some child) :=
  ⟨by decide, by rfl,
   topologicalSort_correct gW ["users", "orgs"] ["orgs", "users"] (by decide)
     (by rfl)⟩

end PgRocket

namespace PgRocket

/-! ### C10: tables in the data map always hold at least one row -/

/-- `TraversalState.GetAllTables`: the keys of the data map. -/
def getAllTables (st : TraversalState) : List String :=
  st.tableData.map Prod.fst

/-- Well-formedness of the data map maintained by the traversal: every entry
holds at least one row, and keys are unique (a Go map). -/
def DataWF (st : TraversalState) : Prop :=
  (∀ e ∈ st.tableData, e.2 ≠ []) ∧ (st.tableData.map Prod.fst).Nodup

/-- The tables for which the zero-row branch of `JSONWriter.Write` (the
`result[tableName] = []` arm) would fire. -/
def jsonEmptyBranchTables (g : Graph) (st : TraversalState) : List String :=
  match topologicalSort g (getAllTables st) with
  | none => []
  | some sorted => sorted.filter (fun t => (lookupD st.tableData t []).isEmpty)

theorem keys_setEntry {α : Type} (m : List (String × α)) (k : String) (v : α) :
    (setEntry m k v).map Prod.fst
      = if k ∈ m.map Prod.fst then m.map Prod.fst else m.map Prod.fst ++ [k] := by
  induction m with
  | nil => simp [setEntry]
  | cons e rest ih =>
    obtain ⟨ek, ev⟩ := e
    by_cases hek : ek = k
    · subst hek
      simp [setEntry]
    · have hke : ¬ k = ek := fun hh => hek hh.symm
      simp only [setEntry, if_neg hek, List.map_cons, List.mem_cons, ih]
      by_cases hmem : k ∈ rest.map Prod.fst
      · simp [hmem, hke]
      · simp [hmem, hke]

theorem lookupA_mem {α : Type} {m : List (String × α)} {t : String}
    (h : t ∈ m.map Prod.fst) :
    ∃ v, lookupA m t = some v ∧ (t, v) ∈ m := by
  induction m with
  | nil => simp at h
  | cons e rest ih =>
    obtain ⟨ek, ev⟩ := e
    by_cases hek : ek = t
    · subst hek
      exact ⟨ev, by simp [lookupA], by simp⟩
    · simp only [List.map_cons, List.mem_cons] at h
      rcases h with h | h
      · exact absurd h.symm hek
      · obtain ⟨v, hv, hmem⟩ := ih h
        exact ⟨v, by simp [lookupA, hek, hv], List.mem_cons_of_mem _ hmem⟩

/-- Success of `TopologicalSort` only emits tables from the input list. -/
theorem topologicalSort_subset (g : Graph) {tables sorted : List String}
    (hnd : tables.Nodup) (h : topologicalSort g tables = some sorted) :
    ∀ t ∈ sorted, t ∈ tables := by
  unfold topologicalSort at h
  cases hloop : kahnLoop (buildGraphData g tables).1 (2 * tables.length + 1)
      (sortStrings (tables.filter
        (fun t => decide ((buildGraphData g tables).2 t = 0))))
      (buildGraphData g tables).2 [] with
  | none => rw [hloop] at h; simp at h
  | some result =>
    rw [hloop] at h
    have h2 : (if result.length = tables.length then some result else none)
        = some sorted := h
    by_cases hlen : result.length = tables.length
    · rw [if_pos hlen] at h2
      simp only [Option.some.injEq] at h2
      subst h2
      exact (kahnLoop_sound g tables hnd _ _ _ [] result
        (kahnInit g tables hnd) (sortStrings_sorted _) hloop).1
    · rw [if_neg hlen] at h2
      simp at h2

/-- **C10.** `processRows` preserves the property that every table present in
the data map has at least one row (batches are only committed when
non-empty), and consequently the zero-row branch of the JSON writer fires
for no table of the topologically sorted output. -/
theorem dataEntries_nonempty (g : Graph) (tableName : String)
    (fieldNames : List String) (rowsIn : List (List Value)) (force : Bool)
    (maxRows : Nat) (st st' : TraversalState)
    (hwf : DataWF st)
    (h : processRows g tableName fieldNames rowsIn force maxRows st
        = Except.ok st') :
    DataWF st' ∧ ∀ g2 : Graph, jsonEmptyBranchTables g2 st' = [] := by
  obtain ⟨hne, hnd⟩ := hwf
  have hwf' : DataWF st' := by
    unfold processRows at h
    cases hloop : processLoop tableName (g.getPrimaryKeyColumns tableName)
        fieldNames force maxRows rowsIn (lookupD st.visitedRows tableName [])
        [] st.rowCount with
    | error e => rw [hloop] at h; exact absurd h (by simp)
    | ok out =>
      obtain ⟨vt, newRows, rc⟩ := out
      rw [hloop] at h
      simp only [Except.ok.injEq] at h
      subst h
      by_cases hnr : newRows = []
      · simp only [if_pos hnr]
        exact ⟨hne, hnd⟩
      · simp only [if_neg hnr]
        constructor
        · intro e he
          rcases mem_setEntry he with rfl | hm
          · intro hc
            simp only at hc
            exact hnr (List.append_eq_nil.mp hc).2
          · exact hne e hm
        · rw [keys_setEntry]
          by_cases hmem : tableName ∈ st.tableData.map Prod.fst
          · simpa [hmem] using hnd
          · simp only [if_neg hmem]
            rw [List.nodup_append]
            exact ⟨hnd, List.nodup_singleton _, by
              intro a ha hb
              rw [List.mem_singleton] at hb
              subst hb
              exact hmem ha⟩
  refine ⟨hwf', ?_⟩
  intro g2
  unfold jsonEmptyBranchTables
  cases hts : topologicalSort g2 (getAllTables st') with
  | none => rfl
  | some sorted =>
    rw [List.filter_eq_nil_iff]
    intro t ht
    have htk : t ∈ getAllTables st' :=
      topologicalSort_subset g2 hwf'.2 hts t ht
    obtain ⟨v, hv, hmem⟩ := lookupA_mem htk
    have hvne : v ≠ [] := hwf'.1 (t, v) hmem
    simp only [lookupD, hv]
    simpa using hvne

/-- Witness for **C10**: after one concrete `processRows` call the data map
is well-formed and no table hits the writer's empty branch. -/
theorem dataEntries_nonempty_witness :
    DataWF initialState ∧
    (DataWF stEx1 ∧ ∀ g2 : Graph, jsonEmptyBranchTables g2 stEx1 = []) :=
  ⟨⟨by simp [initialState], by simp [initialState]⟩,
   dataEntries_nonempty gEx "t" ["id", "name"]
     [[Value.vint 1, Value.vstr "a"]] false 10 initialState stEx1
     ⟨by simp [initialState], by simp [initialState]⟩ (by rfl)⟩

end PgRocket

namespace PgRocket

/-! ## Direct executor (`Executor.Execute` / `validateForeignKeys`)

The executor's pure decision structure: validate the snapshot's FK closure,
then topologically sort, then insert per table inside the transaction.  The
target database is a table→rows map; the model returns the error (if any)
and the resulting database, so "no insert executed / target unchanged" is
`db` returned untouched. -/

/-- Record one violation: `missingRefs[t] = append(missingRefs[t], p)`. -/
def addMissing (mr : List (String × List String)) (t p : String) :
    List (String × List String) :=
  setEntry mr t (lookupD mr t [] ++ [p])

/-- `Executor.validateForeignKeys`: for each table with non-empty rows and
each non-self parent FK, require the parent's data to be present and
non-empty; collect `table → missing parents`. -/
def validateForeignKeys (g : Graph) (data : List (String × List Row)) :
    List (String × List String) :=
  data.foldl
    (fun mr e =>
      if e.2.length = 0 then mr
      else (g.getParents e.1).foldl
        (fun mr2 fk =>
          if fk.parentTable = e.1 then mr2
          else if lookupA data fk.parentTable = none then
            addMissing mr2 e.1 fk.parentTable
          else if (lookupD data fk.parentTable []).length = 0 then
            addMissing mr2 e.1 fk.parentTable
          else mr2)
        mr)
    []

/-- The executor's failure modes. -/
inductive ExecError where
  | fkViolation (missing : List (String × List String))
  | sortFailed
deriving DecidableEq, Repr

/-- `Executor.Execute`, abstracted over the target database: FK
pre-validation, topological sort, then the per-table inserts (each table's
rows appended to the target).  Any error leaves the target unchanged. -/
def executeModel (g : Graph) (st : TraversalState)
    (db : List (String × List Row)) :
    Option ExecError × List (String × List Row) :=
  if (validateForeignKeys g st.tableData).length ≠ 0 then
    (some (ExecError.fkViolation (validateForeignKeys g st.tableData)), db)
  else
    match topologicalSort g (getAllTables st) with
    | none => (some ExecError.sortFailed, db)
    | some sorted =>
      (none,
       sorted.foldl
         (fun acc t =>
           if (lookupD st.tableData t []).length = 0 then acc
           else setEntry acc t (lookupD acc t [] ++ lookupD st.tableData t []))
         db)

theorem mem_addMissing (mr : List (String × List String)) (t0 p0 t p : String) :
    p ∈ lookupD (addMissing mr t0 p0) t []
      ↔ p ∈ lookupD mr t [] ∨ (t = t0 ∧ p = p0) := by
  unfold addMissing
  by_cases ht : t0 = t
  · subst ht
    rw [lookupD_setEntry_self]
    simp [List.mem_append]
  · rw [lookupD_setEntry_ne _ ht]
    have : ¬ t = t0 := fun hh => ht hh.symm
    simp [this]

/-- A parent absent from the snapshot (or present and empty). -/
def MissingParent (data : List (String × List Row)) (p : String) : Prop :=
  lookupA data p = none ∨ lookupA data p = some []

theorem inner_fold_mem (data : List (String × List Row)) (t0 : String) :
    ∀ (fks : List ForeignKey) (mr : List (String × List String)) (t p : String),
    p ∈ lookupD (fks.foldl
        (fun mr2 fk =>
          if fk.parentTable = t0 then mr2
          else if lookupA data fk.parentTable = none then
            addMissing mr2 t0 fk.parentTable
          else if (lookupD data fk.parentTable []).length = 0 then
            addMissing mr2 t0 fk.parentTable
          else mr2)
        mr) t []
      ↔ p ∈ lookupD mr t []
        ∨ (t = t0 ∧ ∃ fk ∈ fks, fk.parentTable = p ∧ p ≠ t0 ∧
            MissingParent data p) := by
  intro fks
  induction fks with
  | nil =>
    intro mr t p
    simp
  | cons fk rest ih =>
    intro mr t p
    simp only [List.foldl_cons]
    have hmp_of : lookupA data fk.parentTable = none ∨
        (lookupA data fk.parentTable ≠ none ∧
          (lookupD data fk.parentTable []).length = 0) →
        MissingParent data fk.parentTable := by
      rintro (hn | ⟨hs, hz⟩)
      · exact Or.inl hn
      · right
        cases hl : lookupA data fk.parentTable with
        | none => exact absurd hl hs
        | some prows =>
          have : lookupD data fk.parentTable [] = prows := by
            simp [lookupD, hl]
          rw [this] at hz
          rw [List.eq_nil_of_length_eq_zero hz]
    have hnot_mp : ¬ MissingParent data fk.parentTable →
        lookupA data fk.parentTable ≠ none ∧
          (lookupD data fk.parentTable []).length ≠ 0 := by
      intro hn
      unfold MissingParent at hn
      push_neg at hn
      obtain ⟨h1, h2⟩ := hn
      refine ⟨h1, ?_⟩
      cases hl : lookupA data fk.parentTable with
      | none => exact absurd hl h1
      | some prows =>
        have : lookupD data fk.parentTable [] = prows := by
          simp [lookupD, hl]
        rw [this]
        intro hz
        rw [List.eq_nil_of_length_eq_zero hz] at hl
        exact h2 hl
    by_cases hself : fk.parentTable = t0
    · rw [if_pos hself, ih]
      constructor
      · rintro (h | ⟨ht, fk2, hfk2, hrest⟩)
        · exact Or.inl h
        · exact Or.inr ⟨ht, fk2, List.mem_cons_of_mem _ hfk2, hrest⟩
      · rintro (h | ⟨ht, fk2, hfk2, hpar, hne, hmp⟩)
        · exact Or.inl h
        · rcases List.mem_cons.mp hfk2 with rfl | hfk2
          · exact absurd (hpar.symm.trans hself) hne
          · exact Or.inr ⟨ht, fk2, hfk2, hpar, hne, hmp⟩
    · rw [if_neg hself]
      by_cases hn : lookupA data fk.parentTable = none
      · rw [if_pos hn, ih]
        constructor
        · rintro (h | ⟨ht, fk2, hfk2, hrest⟩)
          · rcases (mem_addMissing mr t0 fk.parentTable t p).mp h with h | ⟨ht, hp⟩
            · exact Or.inl h
            · subst hp
              exact Or.inr ⟨ht, fk, List.mem_cons_self _ _, rfl, hself,
                Or.inl hn⟩
          · exact Or.inr ⟨ht, fk2, List.mem_cons_of_mem _ hfk2, hrest⟩
        · rintro (h | ⟨ht, fk2, hfk2, hpar, hne, hmp⟩)
          · exact Or.inl ((mem_addMissing mr t0 fk.parentTable t p).mpr (Or.inl h))
          · rcases List.mem_cons.mp hfk2 with rfl | hfk2
            · exact Or.inl ((mem_addMissing mr t0 _ t p).mpr
                (Or.inr ⟨ht, hpar.symm⟩))
            · exact Or.inr ⟨ht, fk2, hfk2, hpar, hne, hmp⟩
      · rw [if_neg hn]
        by_cases hz : (lookupD data fk.parentTable []).length = 0
        · rw [if_pos hz, ih]
          have hmp0 : MissingParent data fk.parentTable :=
            hmp_of (Or.inr ⟨hn, hz⟩)
          constructor
          · rintro (h | ⟨ht, fk2, hfk2, hrest⟩)
            · rcases (mem_addMissing mr t0 fk.parentTable t p).mp h with h | ⟨ht, hp⟩
              · exact Or.inl h
              · subst hp
                exact Or.inr ⟨ht, fk, List.mem_cons_self _ _, rfl, hself, hmp0⟩
            · exact Or.inr ⟨ht, fk2, List.mem_cons_of_mem _ hfk2, hrest⟩
          · rintro (h | ⟨ht, fk2, hfk2, hpar, hne, hmp⟩)
            · exact Or.inl ((mem_addMissing mr t0 fk.parentTable t p).mpr (Or.inl h))
            · rcases List.mem_cons.mp hfk2 with rfl | hfk2
              · exact Or.inl ((mem_addMissing mr t0 _ t p).mpr
                  (Or.inr ⟨ht, hpar.symm⟩))
              · exact Or.inr ⟨ht, fk2, hfk2, hpar, hne, hmp⟩
        · rw [if_neg hz, ih]
          have hnomp : ¬ MissingParent data fk.parentTable := by
            rintro (h1 | h1)
            · exact hn h1
            · apply hz
              simp [lookupD, h1]
          constructor
          · rintro (h | ⟨ht, fk2, hfk2, hrest⟩)
            · exact Or.inl h
            · exact Or.inr ⟨ht, fk2, List.mem_cons_of_mem _ hfk2, hrest⟩
          · rintro (h | ⟨ht, fk2, hfk2, hpar, hne, hmp⟩)
            · exact Or.inl h
            · rcases List.mem_cons.mp hfk2 with rfl | hfk2
              · rw [← hpar] at hmp
                exact absurd hmp hnomp
              · exact Or.inr ⟨ht, fk2, hfk2, hpar, hne, hmp⟩

end PgRocket

namespace PgRocket

theorem not_missingParent {data : List (String × List Row)} {p : String}
    (h : ¬ MissingParent data p) :
    lookupA data p ≠ none ∧ (lookupD data p []).length ≠ 0 := by
  unfold MissingParent at h
  push_neg at h
  obtain ⟨h1, h2⟩ := h
  refine ⟨h1, ?_⟩
  cases hl : lookupA data p with
  | none => exact absurd hl h1
  | some prows =>
    have heq : lookupD data p [] = prows := by simp [lookupD, hl]
    rw [heq]
    intro hz
    rw [List.eq_nil_of_length_eq_zero hz] at hl
    exact h2 hl

theorem inner_fold_id (data : List (String × List Row)) (t0 : String) :
    ∀ (fks : List ForeignKey) (mr : List (String × List String)),
    (∀ fk ∈ fks, fk.parentTable ≠ t0 → ¬ MissingParent data fk.parentTable) →
    fks.foldl
      (fun mr2 fk =>
        if fk.parentTable = t0 then mr2
        else if lookupA data fk.parentTable = none then
          addMissing mr2 t0 fk.parentTable
        else if (lookupD data fk.parentTable []).length = 0 then
          addMissing mr2 t0 fk.parentTable
        else mr2)
      mr = mr := by
  intro fks
  induction fks with
  | nil => intro mr _; rfl
  | cons fk rest ih =>
    intro mr hok
    simp only [List.foldl_cons]
    by_cases hself : fk.parentTable = t0
    · rw [if_pos hself]
      exact ih mr (fun fk2 h2 => hok fk2 (List.mem_cons_of_mem _ h2))
    · rw [if_neg hself]
      obtain ⟨hn, hz⟩ :=
        not_missingParent (hok fk (List.mem_cons_self _ _) hself)
      rw [if_neg hn, if_neg hz]
      exact ih mr (fun fk2 h2 => hok fk2 (List.mem_cons_of_mem _ h2))

theorem outer_fold_mem (g : Graph) (data : List (String × List Row)) :
    ∀ (entries : List (String × List Row)) (mr : List (String × List String))
      (t p : String),
    p ∈ lookupD (entries.foldl
        (fun mr e =>
          if e.2.length = 0 then mr
          else (g.getParents e.1).foldl
            (fun mr2 fk =>
              if fk.parentTable = e.1 then mr2
              else if lookupA data fk.parentTable = none then
                addMissing mr2 e.1 fk.parentTable
              else if (lookupD data fk.parentTable []).length = 0 then
                addMissing mr2 e.1 fk.parentTable
              else mr2)
            mr)
        mr) t []
      ↔ p ∈ lookupD mr t []
        ∨ ∃ rows, (t, rows) ∈ entries ∧ rows ≠ [] ∧
            ∃ fk ∈ g.getParents t, fk.parentTable = p ∧ p ≠ t ∧
              MissingParent data p := by
  intro entries
  induction entries with
  | nil =>
    intro mr t p
    simp
  | cons e rest ih =>
    intro mr t p
    obtain ⟨et, erows⟩ := e
    simp only [List.foldl_cons]
    by_cases hz : erows.length = 0
    · have hz2 : erows = [] := List.eq_nil_of_length_eq_zero hz
      subst hz2
      rw [if_pos (by simp)]
      rw [ih]
      constructor
      · rintro (h | ⟨rows, hmem, hrows, hrest⟩)
        · exact Or.inl h
        · exact Or.inr ⟨rows, List.mem_cons_of_mem _ hmem, hrows, hrest⟩
      · rintro (h | ⟨rows, hmem, hrows, hrest⟩)
        · exact Or.inl h
        · rcases List.mem_cons.mp hmem with heq | hmem2
          · exact absurd (congrArg Prod.snd heq) (by simpa using hrows)
          · exact Or.inr ⟨rows, hmem2, hrows, hrest⟩
    · rw [if_neg (by simpa using hz)]
      rw [ih, inner_fold_mem data et (g.getParents et) mr t p]
      constructor
      · rintro ((h | ⟨ht, fk, hfk, hpar, hne, hmp⟩) | ⟨rows, hmem, hrows, hrest⟩)
        · exact Or.inl h
        · subst ht
          exact Or.inr ⟨erows, List.mem_cons_self _ _,
            fun hh => hz (by rw [hh]; rfl), fk, hfk, hpar, hne, hmp⟩
        · exact Or.inr ⟨rows, List.mem_cons_of_mem _ hmem, hrows, hrest⟩
      · rintro (h | ⟨rows, hmem, hrows, fk, hfk, hpar, hne, hmp⟩)
        · exact Or.inl (Or.inl h)
        · rcases List.mem_cons.mp hmem with heq | hmem2
          · have ht : t = et := congrArg Prod.fst heq
            subst ht
            exact Or.inl (Or.inr ⟨rfl, fk, hfk, hpar, hne, hmp⟩)
          · exact Or.inr ⟨rows, hmem2, hrows, fk, hfk, hpar, hne, hmp⟩

theorem validate_mem (g : Graph) (data : List (String × List Row)) (t p : String) :
    p ∈ lookupD (validateForeignKeys g data) t []
      ↔ ∃ rows, (t, rows) ∈ data ∧ rows ≠ [] ∧
          ∃ fk ∈ g.getParents t, fk.parentTable = p ∧ p ≠ t ∧
            MissingParent data p := by
  unfold validateForeignKeys
  rw [outer_fold_mem g data data [] t p]
  simp [lookupD, lookupA]

theorem outer_fold_id (g : Graph) (data : List (String × List Row)) :
    ∀ (entries : List (String × List Row)) (mr : List (String × List String)),
    (∀ e ∈ entries, e.2 ≠ [] → ∀ fk ∈ g.getParents e.1, fk.parentTable ≠ e.1 →
      ¬ MissingParent data fk.parentTable) →
    entries.foldl
      (fun mr e =>
        if e.2.length = 0 then mr
        else (g.getParents e.1).foldl
          (fun mr2 fk =>
            if fk.parentTable = e.1 then mr2
            else if lookupA data fk.parentTable = none then
              addMissing mr2 e.1 fk.parentTable
            else if (lookupD data fk.parentTable []).length = 0 then
              addMissing mr2 e.1 fk.parentTable
            else mr2)
          mr)
      mr = mr := by
  intro entries
  induction entries with
  | nil => intro mr _; rfl
  | cons e rest ih =>
    intro mr hok
    simp only [List.foldl_cons]
    by_cases hz : e.2.length = 0
    · rw [if_pos hz]
      exact ih mr (fun e2 h2 => hok e2 (List.mem_cons_of_mem _ h2))
    · rw [if_neg hz]
      rw [inner_fold_id data e.1 (g.getParents e.1) mr
        (hok e (List.mem_cons_self _ _)
          (fun hh => hz (by rw [hh]; rfl)))]
      exact ih mr (fun e2 h2 => hok e2 (List.mem_cons_of_mem _ h2))

theorem validate_nil_iff (g : Graph) (data : List (String × List Row)) :
    validateForeignKeys g data = []
      ↔ ∀ (t : String) (rows : List Row), (t, rows) ∈ data → rows ≠ [] →
          ∀ fk ∈ g.getParents t, fk.parentTable ≠ t →
            ¬ MissingParent data fk.parentTable := by
  constructor
  · intro h t rows hmem hrows fk hfk hne hmp
    have := (validate_mem g data t fk.parentTable).mpr
      ⟨rows, hmem, hrows, fk, hfk, rfl, hne, hmp⟩
    rw [h] at this
    simp [lookupD, lookupA] at this
  · intro h
    unfold validateForeignKeys
    exact outer_fold_id g data data []
      (fun e he hne fk hfk hnself => h e.1 e.2 (by rwa [Prod.mk.eta]) hne fk hfk hnself)

end PgRocket

namespace PgRocket

/-- **C5.** The direct executor's FK pre-validation: the collected violation
map lists exactly the tables with non-empty rows having a non-self FK whose
parent table is absent from the snapshot or present with no rows; it is
empty exactly when no such violation exists; and when any violation exists,
`Execute` fails with the violation listing before any insert is executed,
leaving the target database unchanged. -/
theorem execute_fk_prevalidation (g : Graph) (st : TraversalState)
    (db : List (String × List Row)) :
    (∀ t p : String, p ∈ lookupD (validateForeignKeys g st.tableData) t [] ↔
       ∃ rows, (t, rows) ∈ st.tableData ∧ rows ≠ [] ∧
         ∃ fk ∈ g.getParents t, fk.parentTable = p ∧ p ≠ t ∧
           MissingParent st.tableData p) ∧
    (validateForeignKeys g st.tableData = [] ↔
       ∀ (t : String) (rows : List Row), (t, rows) ∈ st.tableData → rows ≠ [] →
         ∀ fk ∈ g.getParents t, fk.parentTable ≠ t →
           ¬ MissingParent st.tableData fk.parentTable) ∧
    (validateForeignKeys g st.tableData ≠ [] →
       executeModel g st db
         = (some (ExecError.fkViolation (validateForeignKeys g st.tableData)), db)) := by
  refine ⟨validate_mem g st.tableData, validate_nil_iff g st.tableData, ?_⟩
  intro hne
  unfold executeModel
  rw [if_pos (by
    intro hl
    exact hne (List.eq_nil_of_length_eq_zero hl))]

/-- Example executor state: table `child` extracted with one row, its parent
`parent` not extracted at all. -/
def stC5 : TraversalState :=
  ⟨[("child", [PKKey.single (Value.vint 1)])],
   [("child", [[("id", Value.vint 1)]])], 1⟩

/-- Graph for the executor example: `child.pid → parent.id`. -/
def gC5 : Graph :=
  ⟨[("child", [⟨"child", "pid", "parent", "id"⟩])], [], []⟩

/-- Witness for **C5**: the violation is detected and `Execute` fails with it,
leaving the target untouched. -/
theorem execute_fk_prevalidation_witness :
    validateForeignKeys gC5 stC5.tableData ≠ [] ∧
    validateForeignKeys gC5 stC5.tableData = [("child", ["parent"])] ∧
    executeModel gC5 stC5 []
      = (some (ExecError.fkViolation [("child", ["parent"])]), []) :=
  ⟨by decide, by decide, by
    have h := (execute_fk_prevalidation gC5 stC5 []).2.2 (by decide)
    rw [show validateForeignKeys gC5 stC5.tableData = [("child", ["parent"])]
      from by decide] at h
    exact h⟩

end PgRocket

namespace PgRocket

/-! ## Root-query JSONB rewrite (`executeRootQuery`) vs non-root fetch
projection (`fetchRowsByPK` / `fetchRowsByFK`)

`executeRootQuery` (traversal.go lines 106-183) detects JSON/JSONB columns,
and when the query contains `SELECT *` (upper-cased check) rewrites it to an
explicit column list, casting JSON columns with a plain `::text`.  The
non-root fetches build their column lists with `to_jsonb(col)::text`. -/

/-- Go `strings.Replace(s, old, new, 1)`: replace the first occurrence. -/
def replaceFirst (old nw : List Char) : List Char → List Char
  | [] => if isPfxOf old [] then nw else []
  | c :: rest =>
    if isPfxOf old (c :: rest) then nw ++ (c :: rest).drop old.length
    else c :: replaceFirst old nw rest

/-- Whether a column's `data_type` is `jsonb` or `json`. -/
def isJsonType (dt : String) : Bool := dt = "jsonb" || dt = "json"

/-- `hasJSONB` after the column scan. -/
def hasJSONBOf (columns : List (String × String)) : Bool :=
  columns.any (fun c => isJsonType c.2)

/-- The explicit column list built by `executeRootQuery` (lines 145-158):
JSON/JSONB columns are projected with a plain `colName::text AS colName`. -/
def rootSelectCols (columns : List (String × String)) : List String :=
  columns.map (fun c => if isJsonType c.2 then c.1 ++ "::text AS " ++ c.1 else c.1)

/-- The query `executeRootQuery` actually runs (lines 136-168): when JSON
columns exist and the upper-cased text contains `SELECT *`, replace the first
`SELECT *` and then the first `select *` with the explicit column list;
otherwise the original query, unchanged. -/
def rootQueryToRun (query : String) (columns : List (String × String)) : String :=
  if hasJSONBOf columns && containsSub "SELECT *".data (toUpperChars query.data) then
    ⟨replaceFirst "select *".data
      ("SELECT ".data ++ (String.intercalate ", " (rootSelectCols columns)).data)
      (replaceFirst "SELECT *".data
        ("SELECT ".data ++ (String.intercalate ", " (rootSelectCols columns)).data)
        query.data)⟩
  else query

/-- The explicit column list built by `fetchRowsByPK`/`fetchRowsByFK`
(lines 487-507, 546-566): JSON/JSONB columns are projected with
`to_jsonb(colName)::text AS colName`. -/
def fetchSelectCols (columns : List (String × String)) : List String :=
  columns.map (fun c =>
    if isJsonType c.2 then "to_jsonb(" ++ c.1 ++ ")::text AS " ++ c.1 else c.1)

/-- Counterexample to **C4** as stated: for `SELECT * FROM projects` on a
table whose `metadata` column is JSONB, the executed root query casts with a
plain `::text`, not with the `to_jsonb(...)::text` cast the non-root fetches
use, so it differs from the claimed rewrite. -/
theorem rootRewrite_uses_plain_text_cast :
    rootQueryToRun "SELECT * FROM projects"
        [("id", "integer"), ("metadata", "jsonb")]
      = "SELECT id, metadata::text AS metadata FROM projects" ∧
    fetchSelectCols [("id", "integer"), ("metadata", "jsonb")]
      = ["id", "to_jsonb(metadata)::text AS metadata"] ∧
    rootQueryToRun "SELECT * FROM projects"
        [("id", "integer"), ("metadata", "jsonb")]
      ≠ "SELECT id, to_jsonb(metadata)::text AS metadata FROM projects" := by
  refine ⟨by decide, by decide, by decide⟩

/-- The amended **C4**: a root query containing `SELECT *` (upper-cased
check) on a table with JSON/JSONB columns runs as the rewrite of its first
`SELECT *` (and then first `select *`) into the explicit column list where
each JSON/JSONB column is projected with the plain cast `col::text AS col`;
queries without `SELECT *` or without JSON/JSONB columns run unchanged; and
the non-root fetches project JSON/JSONB columns with
`to_jsonb(col)::text AS col` instead. -/
theorem rootQuery_rewrite (query : String) (columns : List (String × String)) :
    (¬ (hasJSONBOf columns = true ∧
        containsSub "SELECT *".data (toUpperChars query.data) = true) →
      rootQueryToRun query columns = query) ∧
    (hasJSONBOf columns = true →
      containsSub "SELECT *".data (toUpperChars query.data) = true →
      rootQueryToRun query columns
        = ⟨replaceFirst "select *".data
            ("SELECT ".data
              ++ (String.intercalate ", " (rootSelectCols columns)).data)
            (replaceFirst "SELECT *".data
              ("SELECT ".data
                ++ (String.intercalate ", " (rootSelectCols columns)).data)
              query.data)⟩) ∧
    (∀ c dt : String, (c, dt) ∈ columns → isJsonType dt = true →
      (c ++ "::text AS " ++ c) ∈ rootSelectCols columns ∧
      ("to_jsonb(" ++ c ++ ")::text AS " ++ c) ∈ fetchSelectCols columns) := by
  refine ⟨?_, ?_, ?_⟩
  · intro hn
    unfold rootQueryToRun
    rw [if_neg (by
      intro hb
      rw [Bool.and_eq_true] at hb
      exact hn ⟨hb.1, hb.2⟩)]
  · intro h1 h2
    unfold rootQueryToRun
    rw [if_pos (by rw [Bool.and_eq_true]; exact ⟨h1, h2⟩)]
  · intro c dt hmem hjson
    constructor
    · have := List.mem_map_of_mem
        (fun e : String × String =>
          if isJsonType e.2 then e.1 ++ "::text AS " ++ e.1 else e.1) hmem
      simpa [rootSelectCols, hjson] using this
    · have := List.mem_map_of_mem
        (fun e : String × String =>
          if isJsonType e.2 then "to_jsonb(" ++ e.1 ++ ")::text AS " ++ e.1
          else e.1) hmem
      simpa [fetchSelectCols, hjson] using this

/-- Witness for the amended **C4**: the concrete rewrite, an unchanged
non-`SELECT *` query, and the two cast shapes at a concrete column. -/
theorem rootQuery_rewrite_witness :
    rootQueryToRun "SELECT id FROM projects"
        [("id", "integer"), ("metadata", "jsonb")]
      = "SELECT id FROM projects" ∧
    rootQueryToRun "SELECT * FROM projects"
        [("id", "integer"), ("metadata", "jsonb")]
      = "SELECT id, metadata::text AS metadata FROM projects" ∧
    ("metadata::text AS metadata" ∈ rootSelectCols
        [("id", "integer"), ("metadata", "jsonb")] ∧
      "to_jsonb(metadata)::text AS metadata" ∈ fetchSelectCols
        [("id", "integer"), ("metadata", "jsonb")]) :=
  ⟨(rootQuery_rewrite "SELECT id FROM projects"
      [("id", "integer"), ("metadata", "jsonb")]).1 (by decide),
   by decide,
   (rootQuery_rewrite "SELECT * FROM projects"
      [("id", "integer"), ("metadata", "jsonb")]).2.2 "metadata" "jsonb"
     (by decide) (by decide)⟩

end PgRocket

namespace PgRocket

/-! ## `Graph.DetectMultiTableCycles` (graph.go)

Three-colour DFS over the child edges, skipping self-loops, with parent
pointers recorded during descent and the cycle path reconstructed when a
gray node is rediscovered.  The recursion is embedded with fuel: each
`dfs` call is given fuel `|carrier| + 1`, which bounds the recursion depth
because every recursive call targets a white node of the carrier and
immediately colours it gray (proved below as the `.out` case being
unreachable). -/

inductive Color where
  | white
  | gray
  | black
deriving DecidableEq, Repr

/-- The DFS bookkeeping: `color` and `parent` maps (zero value: WHITE / ""). -/
structure DfsState where
  color : String → Color
  parent : String → Option String

def setColor (c : String → Color) (t : String) (v : Color) : String → Color :=
  fun x => if x = t then v else c x

def setParent (p : String → Option String) (t : String) (v : Option String) :
    String → Option String :=
  fun x => if x = t then v else p x

/-- Duplicate removal (the Go code collects the keys into a set). -/
def dedupKeys : List String → List String
  | [] => []
  | k :: rest => if k ∈ rest then dedupKeys rest else k :: dedupKeys rest

theorem mem_dedupKeys {x : String} : ∀ {l : List String}, x ∈ dedupKeys l ↔ x ∈ l := by
  intro l
  induction l with
  | nil => simp [dedupKeys]
  | cons k rest ih =>
    by_cases hk : k ∈ rest
    · simp only [dedupKeys, if_pos hk, ih, List.mem_cons]
      constructor
      · exact Or.inr
      · rintro (rfl | hx)
        · exact hk
        · exact hx
    · simp [dedupKeys, if_neg hk, ih]

/-- `allTables`, sorted (graph.go lines 27-34 and 88-92). -/
def allTablesSorted (g : Graph) : List String :=
  sortStrings (dedupKeys (g.parents.map Prod.fst ++ g.children.map Prod.fst))

/-- Every table a `dfs` call can ever target. -/
def dfsCarrier (g : Graph) : List String :=
  allTablesSorted g
    ++ (g.children.map (fun e => e.2.map ForeignKey.childTable)).flatten

/-- The cycle-reconstruction loop (graph.go lines 61-66): walk parent
pointers from `current` until `childTable` (or a missing parent, Go's `""`)
is reached, collecting the nodes passed. -/
def cycleWalk (par : String → Option String) : Nat → String → String → List String
  | 0, _, _ => []
  | f + 1, current, w =>
    if current = w then []
    else current :: (match par current with
      | some nx => cycleWalk par f nx w
      | none => [])

/-- Lines 61-71: `[childTable] ++ walk ++ [childTable]`, reversed. -/
def buildCycle (par : String → Option String) (fuel : Nat) (t w : String) :
    List String :=
  ((w :: cycleWalk par fuel t w) ++ [w]).reverse

/-- The cycle error message (graph.go line 73). -/
def cycleErrMsg (l : List String) : String :=
  "cyclic foreign keys detected: " ++ String.intercalate " -> " l
    ++ ". Use --parents or --children to avoid cycles"

/-- Result of one `dfs` call: success (updated state), a cycle error carrying
the reconstructed path, or fuel exhaustion (proved unreachable). -/
inductive DfsOut where
  | ok (s : DfsState)
  | cyc (c : List String)
  | out

/-- The loop over `g.Children[table]` inside `dfs` (graph.go lines 53-85),
parameterized by the recursive call (`dfsV`).  On completion the table is
blackened. -/
def dfsChildren (dfsV : String → DfsState → DfsOut) (N : Nat) :
    List ForeignKey → String → DfsState → DfsOut
  | [], table, s => DfsOut.ok { s with color := setColor s.color table Color.black }
  | fk :: rest, table, s =>
    if fk.childTable = table then dfsChildren dfsV N rest table s
    else
      match s.color fk.childTable with
      | Color.gray => DfsOut.cyc (buildCycle s.parent N table fk.childTable)
      | Color.white =>
        match dfsV fk.childTable
            { s with parent := setParent s.parent fk.childTable (some table) } with
        | DfsOut.ok s2 => dfsChildren dfsV N rest table s2
        | other => other
      | Color.black => dfsChildren dfsV N rest table s

/-- The recursive `dfs` (graph.go lines 50-86): colour gray, walk the child
FKs, blacken on completion. -/
def dfsVisit (g : Graph) (N : Nat) : Nat → String → DfsState → DfsOut
  | 0, _, _ => DfsOut.out
  | fuel + 1, table, s =>
    dfsChildren (fun t2 s2 => dfsVisit g N fuel t2 s2) N (g.getChildren table)
      table { s with color := setColor s.color table Color.gray }

/-- The outer loop over the sorted tables (graph.go lines 94-100). -/
def detectLoop (g : Graph) (N : Nat) : List String → DfsState → DfsOut
  | [], s => DfsOut.ok s
  | t :: rest, s =>
    if s.color t = Color.white then
      match dfsVisit g N N t s with
      | DfsOut.ok s2 => detectLoop g N rest s2
      | other => other
    else detectLoop g N rest s

inductive DetectResult where
  | ok
  | cycle (l : List String)
  | fuelOut
deriving DecidableEq, Repr

/-- `Graph.DetectMultiTableCycles`. -/
def detectMultiTableCycles (g : Graph) : DetectResult :=
  match detectLoop g ((dfsCarrier g).length + 1) (allTablesSorted g)
      ⟨fun _ => Color.white, fun _ => none⟩ with
  | DfsOut.ok _ => DetectResult.ok
  | DfsOut.cyc l => DetectResult.cycle l
  | DfsOut.out => DetectResult.fuelOut

/-- A directed FK edge `a → b` of the cycle-detection graph (a child FK of
`a` pointing at `b`, self-loops excluded). -/
def Edge (g : Graph) (a b : String) : Prop :=
  ∃ fk ∈ g.getChildren a, fk.childTable = b ∧ b ≠ a

/-- A multi-table cycle: a closed, self-loop-free edge path visiting at
least two distinct tables, written with its first table repeated at the end. -/
def IsCycleList (g : Graph) (l : List String) : Prop :=
  3 ≤ l.length ∧ l.head? = l.getLast? ∧ l.dropLast.Nodup ∧
  ∀ i : Nat, i + 1 < l.length → Edge g (l.getD i "") (l.getD (i + 1) "")

theorem lookupA_eq_some_mem {α : Type} {m : List (String × α)} {k : String}
    {v : α} (h : lookupA m k = some v) : (k, v) ∈ m := by
  induction m with
  | nil => simp [lookupA] at h
  | cons e rest ih =>
    obtain ⟨ek, ev⟩ := e
    by_cases hek : ek = k
    · subst hek
      simp [lookupA] at h
      simp [h]
    · simp [lookupA, hek] at h
      exact List.mem_cons_of_mem _ (ih h)

/-- Any table with an outgoing child FK is among the sorted tables. -/
theorem mem_allTables_of_edge {g : Graph} {a b : String} (h : Edge g a b) :
    a ∈ allTablesSorted g := by
  obtain ⟨fk, hfk, -, -⟩ := h
  unfold Graph.getChildren lookupD at hfk
  cases hl : lookupA g.children a with
  | none => rw [hl] at hfk; simp at hfk
  | some v =>
    rw [hl] at hfk
    have hmem := lookupA_eq_some_mem hl
    unfold allTablesSorted
    rw [(sortStrings_perm _).mem_iff]
    rw [mem_dedupKeys, List.mem_append]
    right
    exact List.mem_map_of_mem Prod.fst hmem

/-- Every child-FK target is in the DFS carrier. -/
theorem childTarget_mem_carrier {g : Graph} {a : String} {fk : ForeignKey}
    (h : fk ∈ g.getChildren a) : fk.childTable ∈ dfsCarrier g := by
  unfold Graph.getChildren lookupD at h
  cases hl : lookupA g.children a with
  | none => rw [hl] at h; simp at h
  | some v =>
    rw [hl] at h
    have hmem := lookupA_eq_some_mem hl
    unfold dfsCarrier
    rw [List.mem_append]
    right
    rw [List.mem_flatten]
    exact ⟨v.map ForeignKey.childTable,
      List.mem_map_of_mem (fun e => e.2.map ForeignKey.childTable) hmem,
      List.mem_map_of_mem ForeignKey.childTable h⟩

/-- Sorted tables are in the carrier. -/
theorem allTables_mem_carrier {g : Graph} {t : String}
    (h : t ∈ allTablesSorted g) : t ∈ dfsCarrier g :=
  List.mem_append_left _ h

end PgRocket

namespace PgRocket

/-- What a successful `dfs` call on a white node guarantees: whites only
shrink, non-white nodes keep colour and parent pointer, the visited node
ends black, and no new gray appears. -/
def VisitOkSpec (dfsV : String → DfsState → DfsOut) : Prop :=
  ∀ t s s', s.color t = Color.white → dfsV t s = DfsOut.ok s' →
    (∀ x, s'.color x = Color.white → s.color x = Color.white) ∧
    (∀ x, s.color x ≠ Color.white → s'.color x = s.color x) ∧
    (∀ x, s.color x ≠ Color.white → s'.parent x = s.parent x) ∧
    s'.color t = Color.black ∧
    (∀ x, s'.color x = Color.gray → s.color x = Color.gray)

theorem dfsChildren_ok_trans {dfsV : String → DfsState → DfsOut} {N : Nat}
    (hV : VisitOkSpec dfsV) :
    ∀ (fks : List ForeignKey) (t : String) (s s' : DfsState),
      s.color t = Color.gray →
      dfsChildren dfsV N fks t s = DfsOut.ok s' →
      (∀ x, s'.color x = Color.white → s.color x = Color.white) ∧
      (∀ x, x ≠ t → s.color x ≠ Color.white → s'.color x = s.color x) ∧
      (∀ x, s.color x ≠ Color.white → s'.parent x = s.parent x) ∧
      s'.color t = Color.black ∧
      (∀ x, s'.color x = Color.gray → s.color x = Color.gray ∧ x ≠ t) := by
  intro fks
  induction fks with
  | nil =>
    intro t s s' hgray h
    simp only [dfsChildren] at h
    injection h with h2
    subst h2
    refine ⟨?_, ?_, ?_, by simp [setColor], ?_⟩
    · intro x hx
      by_cases hxt : x = t
      · simp [setColor, hxt] at hx
      · simpa [setColor, hxt] using hx
    · intro x hxt _
      simp [setColor, hxt]
    · intro x _
      rfl
    · intro x hx
      by_cases hxt : x = t
      · simp [setColor, hxt] at hx
      · exact ⟨by simpa [setColor, hxt] using hx, hxt⟩
  | cons fk rest ih =>
    intro t s s' hgray h
    simp only [dfsChildren] at h
    by_cases hself : fk.childTable = t
    · rw [if_pos hself] at h
      exact ih t s s' hgray h
    · rw [if_neg hself] at h
      cases hc : s.color fk.childTable with
      | gray => rw [hc] at h; exact DfsOut.noConfusion h
      | black => rw [hc] at h; exact ih t s s' hgray h
      | white =>
        rw [hc] at h
        cases hv : dfsV fk.childTable
            { s with parent := setParent s.parent fk.childTable (some t) } with
        | cyc c => rw [hv] at h; exact DfsOut.noConfusion h
        | out => rw [hv] at h; exact DfsOut.noConfusion h
        | ok s3 =>
          rw [hv] at h
          have h3 : dfsChildren dfsV N rest t s3 = DfsOut.ok s' := h
          have hwhite2 : ({ s with parent := setParent s.parent fk.childTable (some t) } :
              DfsState).color fk.childTable = Color.white := hc
          obtain ⟨V1, V2, V3, V4, V5⟩ := hV fk.childTable _ s3 hwhite2 hv
          have hs2t : ({ s with parent := setParent s.parent fk.childTable (some t) } :
              DfsState).color t = Color.gray := hgray
          have hgray3 : s3.color t = Color.gray := by
            rw [V2 t (by rw [hs2t]; exact fun hcon => Color.noConfusion hcon)]
            exact hs2t
          obtain ⟨C1, C2, C3, C4, C5⟩ := ih t s3 s' hgray3 h3
          refine ⟨?_, ?_, ?_, C4, ?_⟩
          · intro x hx
            exact V1 x (C1 x hx)
          · intro x hxt hxw
            have hs2w : ({ s with parent := setParent s.parent fk.childTable (some t) } :
                DfsState).color x ≠ Color.white := hxw
            have h3w : s3.color x ≠ Color.white := by
              rw [V2 x hs2w]; exact hxw
            calc s'.color x = s3.color x := C2 x hxt h3w
              _ = s.color x := V2 x hs2w
          · intro x hxw
            have hxc : x ≠ fk.childTable := fun he => hxw (by rw [he]; exact hc)
            have hs2w : ({ s with parent := setParent s.parent fk.childTable (some t) } :
                DfsState).color x ≠ Color.white := hxw
            have h3w : s3.color x ≠ Color.white := by
              rw [V2 x hs2w]; exact hxw
            calc s'.parent x = s3.parent x := C3 x h3w
              _ = s.parent x := by
                  rw [V3 x hs2w]
                  simp [setParent, hxc]
          · intro x hx
            obtain ⟨h3g, hxt⟩ := C5 x hx
            exact ⟨V5 x h3g, hxt⟩

theorem dfsVisit_ok_trans (g : Graph) (N : Nat) :
    ∀ fuel : Nat, VisitOkSpec (fun t2 s2 => dfsVisit g N fuel t2 s2) := by
  intro fuel
  induction fuel with
  | zero =>
    intro t s s' _ h
    exact DfsOut.noConfusion h
  | succ f ih =>
    intro t s s' hw h
    have h2 : dfsChildren (fun t2 s2 => dfsVisit g N f t2 s2) N (g.getChildren t) t
        { s with color := setColor s.color t Color.gray } = DfsOut.ok s' := h
    have hg1 : ({ s with color := setColor s.color t Color.gray } :
        DfsState).color t = Color.gray := by simp [setColor]
    obtain ⟨C1, C2, C3, C4, C5⟩ :=
      dfsChildren_ok_trans ih (g.getChildren t) t _ s' hg1 h2
    refine ⟨?_, ?_, ?_, C4, ?_⟩
    · intro x hx
      have hx1 := C1 x hx
      by_cases hxt : x = t
      · simp [setColor, hxt] at hx1
      · simpa [setColor, hxt] using hx1
    · intro x hxw
      have hxt : x ≠ t := fun he => hxw (by rw [he]; exact hw)
      have hs1 : ({ s with color := setColor s.color t Color.gray } :
          DfsState).color x = s.color x := by simp [setColor, hxt]
      rw [C2 x hxt (by rw [hs1]; exact hxw)]
      exact hs1
    · intro x hxw
      have hxt : x ≠ t := fun he => hxw (by rw [he]; exact hw)
      have hs1 : ({ s with color := setColor s.color t Color.gray } :
          DfsState).color x = s.color x := by simp [setColor, hxt]
      exact C3 x (by rw [hs1]; exact hxw)
    · intro x hx
      obtain ⟨hg1x, hxt⟩ := C5 x hx
      simpa [setColor, hxt] using hg1x

end PgRocket

namespace PgRocket

/-- Number of white carrier nodes: the DFS recursion variant. -/
def whiteCount (g : Graph) (s : DfsState) : Nat :=
  (dfsCarrier g).countP (fun x => s.color x = Color.white)

theorem countP_le_of_impl {α : Type} :
    ∀ (l : List α) (p q : α → Bool), (∀ x ∈ l, q x = true → p x = true) →
      l.countP q ≤ l.countP p := by
  intro l
  induction l with
  | nil => intro p q _; simp
  | cons b l2 ih =>
    intro p q hle
    rw [List.countP_cons, List.countP_cons]
    have hb : (if q b = true then 1 else 0) ≤ (if p b = true then 1 else 0) := by
      by_cases hq : q b = true
      · rw [if_pos hq, if_pos (hle b (List.mem_cons_self b l2) hq)]
      · rw [if_neg hq]
        omega
    have := ih p q (fun x hx => hle x (List.mem_cons_of_mem _ hx))
    omega

theorem countP_lt_of_witness {α : Type} :
    ∀ (l : List α) (p q : α → Bool),
      (∀ x ∈ l, q x = true → p x = true) →
      ∀ a ∈ l, p a = true → q a ≠ true → l.countP q < l.countP p := by
  intro l
  induction l with
  | nil => intro p q _ a ha; simp at ha
  | cons b l2 ih =>
    intro p q hle a ha hpa hqa
    rw [List.countP_cons, List.countP_cons]
    rcases List.mem_cons.mp ha with rfl | ha2
    · rw [if_pos hpa, if_neg hqa]
      have := countP_le_of_impl l2 p q (fun x hx => hle x (List.mem_cons_of_mem _ hx))
      omega
    · have hlt := ih p q (fun x hx => hle x (List.mem_cons_of_mem _ hx)) a ha2 hpa hqa
      have hb : (if q b = true then 1 else 0) ≤ (if p b = true then 1 else 0) := by
        by_cases hq : q b = true
        · rw [if_pos hq, if_pos (hle b (List.mem_cons_self b l2) hq)]
        · rw [if_neg hq]
          omega
      omega

theorem whiteCount_le (g : Graph) (s : DfsState) :
    whiteCount g s ≤ (dfsCarrier g).length :=
  List.countP_le_length _

theorem whiteCount_mono {g : Graph} {s s' : DfsState}
    (h : ∀ x, s'.color x = Color.white → s.color x = Color.white) :
    whiteCount g s' ≤ whiteCount g s := by
  refine countP_le_of_impl (dfsCarrier g) _ _ ?_
  intro x _ hx
  exact decide_eq_true (h x (of_decide_eq_true hx))

theorem whiteCount_pos {g : Graph} {s : DfsState} {t : String}
    (ht : t ∈ dfsCarrier g) (hw : s.color t = Color.white) :
    1 ≤ whiteCount g s :=
  List.countP_pos_iff.mpr ⟨t, ht, decide_eq_true hw⟩

theorem whiteCount_gray_lt {g : Graph} {s : DfsState} {t : String}
    (ht : t ∈ dfsCarrier g) (hw : s.color t = Color.white) :
    whiteCount g { s with color := setColor s.color t Color.gray } < whiteCount g s := by
  refine countP_lt_of_witness (dfsCarrier g) _ _ ?_ t ht (decide_eq_true hw) ?_
  · intro x _ hx
    have hx2 := of_decide_eq_true hx
    by_cases hxt : x = t
    · simp [setColor, hxt] at hx2
    · simp only [setColor, if_neg hxt] at hx2
      exact decide_eq_true hx2
  · intro hcon
    have := of_decide_eq_true hcon
    simp [setColor] at this

theorem dfsChildren_no_out (g : Graph) {dfsV : String → DfsState → DfsOut}
    {N fuel : Nat}
    (hVout : ∀ t s, t ∈ dfsCarrier g → s.color t = Color.white →
      whiteCount g s ≤ fuel → dfsV t s ≠ DfsOut.out)
    (hVwhite : ∀ t s s', s.color t = Color.white → dfsV t s = DfsOut.ok s' →
      ∀ x, s'.color x = Color.white → s.color x = Color.white) :
    ∀ (fks : List ForeignKey) (t : String) (s : DfsState),
      (∀ fk ∈ fks, fk ∈ g.getChildren t) → whiteCount g s ≤ fuel →
      dfsChildren dfsV N fks t s ≠ DfsOut.out := by
  intro fks
  induction fks with
  | nil =>
    intro t s _ _ h
    simp only [dfsChildren] at h
    exact DfsOut.noConfusion h
  | cons fk rest ih =>
    intro t s hfks hwc h
    simp only [dfsChildren] at h
    by_cases hself : fk.childTable = t
    · rw [if_pos hself] at h
      exact ih t s (fun f2 hf2 => hfks f2 (List.mem_cons_of_mem _ hf2)) hwc h
    · rw [if_neg hself] at h
      cases hc : s.color fk.childTable with
      | gray => rw [hc] at h; exact DfsOut.noConfusion h
      | black =>
        rw [hc] at h
        exact ih t s (fun f2 hf2 => hfks f2 (List.mem_cons_of_mem _ hf2)) hwc h
      | white =>
        rw [hc] at h
        cases hv : dfsV fk.childTable
            { s with parent := setParent s.parent fk.childTable (some t) } with
        | cyc c => rw [hv] at h; exact DfsOut.noConfusion h
        | out =>
          have hchild : fk.childTable ∈ dfsCarrier g :=
            childTarget_mem_carrier (hfks fk (List.mem_cons_self fk rest))
          exact absurd hv (hVout fk.childTable _ hchild hc hwc)
        | ok s3 =>
          rw [hv] at h
          have h3 : dfsChildren dfsV N rest t s3 = DfsOut.out := h
          have hw3 : whiteCount g s3 ≤ fuel :=
            le_trans (whiteCount_mono (hVwhite fk.childTable
              { s with parent := setParent s.parent fk.childTable (some t) } s3 hc hv)) hwc
          exact ih t s3 (fun f2 hf2 => hfks f2 (List.mem_cons_of_mem _ hf2)) hw3 h3

theorem dfsVisit_no_out (g : Graph) (N : Nat) :
    ∀ (fuel : Nat) (t : String) (s : DfsState),
      t ∈ dfsCarrier g → s.color t = Color.white → whiteCount g s ≤ fuel →
      dfsVisit g N fuel t s ≠ DfsOut.out := by
  intro fuel
  induction fuel with
  | zero =>
    intro t s ht hw hwc _
    have := whiteCount_pos ht hw
    omega
  | succ f ih =>
    intro t s ht hw hwc h
    have h2 : dfsChildren (fun t2 s2 => dfsVisit g N f t2 s2) N (g.getChildren t) t
        { s with color := setColor s.color t Color.gray } = DfsOut.out := h
    have hlt := whiteCount_gray_lt ht hw
    have hwcf : whiteCount g { s with color := setColor s.color t Color.gray } ≤ f := by
      omega
    exact dfsChildren_no_out g
      (fun t2 s2 ht2 hw2 hwc2 => ih t2 s2 ht2 hw2 hwc2)
      (fun t2 s2 s2' hw2 hok => ((dfsVisit_ok_trans g N f) t2 s2 s2' hw2 hok).1)
      (g.getChildren t) t _ (fun f2 hf2 => hf2) hwcf h2

theorem detectLoop_no_out (g : Graph) :
    ∀ (tbls : List String) (s : DfsState),
      (∀ t ∈ tbls, t ∈ dfsCarrier g) →
      detectLoop g ((dfsCarrier g).length + 1) tbls s ≠ DfsOut.out := by
  intro tbls
  induction tbls with
  | nil =>
    intro s _ h
    exact DfsOut.noConfusion h
  | cons t rest ih =>
    intro s htbls h
    simp only [detectLoop] at h
    by_cases hw : s.color t = Color.white
    · rw [if_pos hw] at h
      cases hv : dfsVisit g ((dfsCarrier g).length + 1) ((dfsCarrier g).length + 1) t s with
      | ok s2 =>
        rw [hv] at h
        have h2 : detectLoop g ((dfsCarrier g).length + 1) rest s2 = DfsOut.out := h
        exact ih s2 (fun u hu => htbls u (List.mem_cons_of_mem _ hu)) h2
      | cyc c => rw [hv] at h; exact DfsOut.noConfusion h
      | out =>
        refine absurd hv (dfsVisit_no_out g _ _ t s
          (htbls t (List.mem_cons_self t rest)) hw ?_)
        have := whiteCount_le g s
        omega
    · rw [if_neg hw] at h
      exact ih s (fun u hu => htbls u (List.mem_cons_of_mem _ hu)) h

end PgRocket

namespace PgRocket

/-! ### Index bookkeeping for list positions -/

theorem getD_append_lt : ∀ (l1 l2 : List String) (i : Nat), i < l1.length →
    (l1 ++ l2).getD i "" = l1.getD i "" := by
  intro l1
  induction l1 with
  | nil => intro l2 i h; simp at h
  | cons a l1 ih =>
    intro l2 i h
    cases i with
    | zero => rfl
    | succ i2 =>
      simp only [List.cons_append, List.getD_cons_succ]
      exact ih l2 i2 (by simp only [List.length_cons] at h; omega)

theorem getD_append_ge : ∀ (l1 l2 : List String) (i : Nat), l1.length ≤ i →
    (l1 ++ l2).getD i "" = l2.getD (i - l1.length) "" := by
  intro l1
  induction l1 with
  | nil => intro l2 i _; simp
  | cons a l1 ih =>
    intro l2 i h
    simp only [List.length_cons] at h
    cases i with
    | zero => omega
    | succ i2 =>
      simp only [List.cons_append, List.getD_cons_succ, List.length_cons]
      rw [ih l2 i2 (by omega)]
      congr 1
      omega

theorem getD_mem : ∀ (l : List String) (i : Nat), i < l.length → l.getD i "" ∈ l := by
  intro l
  induction l with
  | nil => intro i h; simp at h
  | cons a l ih =>
    intro i h
    cases i with
    | zero => simp
    | succ i2 =>
      simp only [List.getD_cons_succ]
      exact List.mem_cons_of_mem _ (ih i2 (by simp only [List.length_cons] at h; omega))

theorem getD_of_mem : ∀ {l : List String} {b : String}, b ∈ l →
    ∃ j : Nat, j < l.length ∧ l.getD j "" = b := by
  intro l
  induction l with
  | nil => intro b h; simp at h
  | cons a l ih =>
    intro b h
    rcases List.mem_cons.mp h with rfl | h2
    · exact ⟨0, by simp, rfl⟩
    · obtain ⟨j, hj, he⟩ := ih h2
      exact ⟨j + 1, by simp only [List.length_cons]; omega, by simpa using he⟩

theorem getD_inj_nodup : ∀ {l : List String}, l.Nodup → ∀ {i j : Nat},
    i < l.length → j < l.length → l.getD i "" = l.getD j "" → i = j := by
  intro l
  induction l with
  | nil => intro _ i j hi; simp at hi
  | cons a l ih =>
    intro nd i j hi hj he
    simp only [List.length_cons] at hi hj
    obtain ⟨ha, nd2⟩ := List.nodup_cons.mp nd
    cases i with
    | zero =>
      cases j with
      | zero => rfl
      | succ j2 =>
        simp only [List.getD_cons_zero, List.getD_cons_succ] at he
        exact absurd (he ▸ getD_mem l j2 (by omega)) ha
    | succ i2 =>
      cases j with
      | zero =>
        simp only [List.getD_cons_zero, List.getD_cons_succ] at he
        exact absurd (he ▸ getD_mem l i2 (by omega)) ha
      | succ j2 =>
        simp only [List.getD_cons_succ] at he
        have := ih nd2 (by omega) (by omega) he
        omega

theorem reverse_map_range {α : Type} (f : Nat → α) :
    ∀ n : Nat, ((List.range n).map f).reverse
      = (List.range n).map (fun i => f (n - 1 - i)) := by
  intro n
  apply List.ext_getElem
  · simp
  · intro i h1 h2
    simp only [List.length_reverse, List.length_map, List.length_range] at h1 h2
    rw [List.getElem_reverse]
    simp only [List.getElem_map, List.getElem_range, List.length_map, List.length_range]

theorem getD_map_range {f : Nat → String} {n i : Nat} (h : i < n) :
    ((List.range n).map f).getD i "" = f i := by
  have hlen : i < ((List.range n).map f).length := by
    simp [List.length_map, List.length_range, h]
  rw [List.getD_eq_getElem _ _ hlen, List.getElem_map]
  congr 1
  exact List.getElem_range _ _

end PgRocket

namespace PgRocket

/-- The parent-pointer/edge structure along the current DFS chain. -/
def chainLinks (g : Graph) (s : DfsState) (C : List String) : Prop :=
  ∀ i : Nat, i + 1 < C.length →
    s.parent (C.getD (i + 1) "") = some (C.getD i "") ∧
    Edge g (C.getD i "") (C.getD (i + 1) "")

/-- The gray nodes are exactly the current DFS chain, without duplicates,
inside the carrier, and linked by parent pointers and edges. -/
def grayStack (g : Graph) (s : DfsState) (C : List String) : Prop :=
  (∀ x, s.color x = Color.gray ↔ x ∈ C) ∧ C.Nodup ∧
  (∀ x ∈ C, x ∈ dfsCarrier g) ∧ chainLinks g s C

theorem cycleWalk_spec (par : String → Option String) (C : List String)
    (links : ∀ i : Nat, i + 1 < C.length →
      par (C.getD (i + 1) "") = some (C.getD i ""))
    (nd : C.Nodup) :
    ∀ (d k : Nat), k < C.length → d ≤ k → ∀ fuel : Nat, d < fuel →
      cycleWalk par fuel (C.getD k "") (C.getD (k - d) "")
        = (List.range d).map (fun i => C.getD (k - i) "") := by
  intro d
  induction d with
  | zero =>
    intro k hk _ fuel hfuel
    cases fuel with
    | zero => omega
    | succ f => simp [cycleWalk]
  | succ d2 ih =>
    intro k hk hd fuel hfuel
    cases fuel with
    | zero => omega
    | succ f =>
      simp only [cycleWalk]
      have hne : C.getD k "" ≠ C.getD (k - (d2 + 1)) "" := by
        intro he
        have := getD_inj_nodup nd hk (by omega) he
        omega
      rw [if_neg hne]
      have hlink := links (k - 1) (by omega)
      have h1 : k - 1 + 1 = k := by omega
      rw [h1] at hlink
      rw [hlink]
      show C.getD k "" :: cycleWalk par f (C.getD (k - 1) "") (C.getD (k - (d2 + 1)) "")
        = (List.range (d2 + 1)).map (fun i => C.getD (k - i) "")
      have h2 : (k - 1) - d2 = k - (d2 + 1) := by omega
      have ihr := ih (k - 1) (by omega) (by omega) f (by omega)
      rw [h2] at ihr
      rw [ihr, List.range_succ_eq_map]
      simp only [List.map_cons, List.map_map]
      congr 1
      refine List.map_congr_left ?_
      intro i hi
      have hilt : i < d2 := List.mem_range.mp hi
      simp only [Function.comp]
      congr 1
      omega

theorem buildCycle_isCycle (g : Graph) (s : DfsState) (C : List String)
    (hlinks : chainLinks g s C) (nd : C.Nodup)
    (N : Nat) (hN : C.length ≤ N) (j : Nat) (hj : j + 1 < C.length)
    (hedge : Edge g (C.getD (C.length - 1) "") (C.getD j "")) :
    IsCycleList g (buildCycle s.parent N (C.getD (C.length - 1) "") (C.getD j "")) := by
  have hlen1 : 1 ≤ C.length := by omega
  have hk : C.length - 1 < C.length := by omega
  have hjk : j < C.length - 1 := by omega
  have hwalk := cycleWalk_spec s.parent C (fun i hi => (hlinks i hi).1) nd
    (C.length - 1 - j) (C.length - 1) hk (by omega) N (by omega)
  have hj2 : (C.length - 1) - ((C.length - 1) - j) = j := by omega
  rw [hj2] at hwalk
  unfold buildCycle
  rw [hwalk]
  rw [List.reverse_append]
  simp only [List.reverse_singleton, List.reverse_cons, List.reverse_nil,
    List.nil_append, List.singleton_append]
  rw [reverse_map_range]
  -- the reconstructed list, in forward orientation
  have hm1 : 1 ≤ C.length - 1 - j := by omega
  have hforward :
      (C.getD j "" :: ((List.range (C.length - 1 - j)).map
          (fun i => C.getD (C.length - 1 - (C.length - 1 - j - 1 - i)) "") ++ [C.getD j ""]))
        = (List.range (C.length - 1 - j + 1)).map (fun i => C.getD (j + i) "")
            ++ [C.getD j ""] := by
    rw [List.range_succ_eq_map]
    simp only [List.map_cons, List.map_map, List.cons_append]
    have htail : List.map
        (fun i => C.getD (C.length - 1 - (C.length - 1 - j - 1 - i)) "")
        (List.range (C.length - 1 - j))
        = List.map ((fun i => C.getD (j + i) "") ∘ Nat.succ)
            (List.range (C.length - 1 - j)) := by
      refine List.map_congr_left ?_
      intro i hi
      have hilt : i < C.length - 1 - j := List.mem_range.mp hi
      simp only [Function.comp]
      congr 1
      omega
    rw [htail]
    rfl
  rw [hforward]
  -- now prove IsCycleList of the forward form
  set m : Nat := C.length - 1 - j with hm
  refine ⟨?_, ?_, ?_, ?_⟩
  · simp only [List.length_append, List.length_map, List.length_range,
      List.length_cons, List.length_nil]
    omega
  · have hmem0 : (0 : Nat) < m + 1 := by omega
    have hhead : ((List.range (m + 1)).map (fun i => C.getD (j + i) "")
        ++ [C.getD j ""]).head? = some (C.getD j "") := by
      rw [List.range_succ_eq_map]
      simp
    rw [hhead, List.getLast?_concat]
  · rw [List.dropLast_concat]
    refine List.Nodup.map_on ?_ (List.nodup_range (m + 1))
    intro x hx y hy he
    have hxlt : x < m + 1 := List.mem_range.mp hx
    have hylt : y < m + 1 := List.mem_range.mp hy
    have := getD_inj_nodup nd (i := j + x) (j := j + y) (by omega) (by omega) he
    omega
  · intro i hi
    simp only [List.length_append, List.length_map, List.length_range,
      List.length_cons, List.length_nil] at hi
    have hile : i ≤ m := by omega
    have hgi : ((List.range (m + 1)).map (fun i2 => C.getD (j + i2) "")
        ++ [C.getD j ""]).getD i "" = C.getD (j + i) "" := by
      rw [getD_append_lt _ _ i (by simp only [List.length_map, List.length_range]; omega)]
      exact getD_map_range (by omega)
    rcases Nat.lt_or_ge i m with hilt | hieq
    · have hgi1 : ((List.range (m + 1)).map (fun i2 => C.getD (j + i2) "")
          ++ [C.getD j ""]).getD (i + 1) "" = C.getD (j + (i + 1)) "" := by
        rw [getD_append_lt _ _ (i + 1)
          (by simp only [List.length_map, List.length_range]; omega)]
        exact getD_map_range (by omega)
      rw [hgi, hgi1]
      have := (hlinks (j + i) (by omega)).2
      have harith : j + i + 1 = j + (i + 1) := by omega
      rw [harith] at this
      exact this
    · have hieq2 : i = m := by omega
      subst hieq2
      have hgi1 : ((List.range (m + 1)).map (fun i2 => C.getD (j + i2) "")
          ++ [C.getD j ""]).getD (m + 1) "" = C.getD j "" := by
        rw [getD_append_ge _ _ (m + 1)
          (by simp only [List.length_map, List.length_range]; omega)]
        simp
      rw [hgi, hgi1]
      have harith : j + m = C.length - 1 := by omega
      rw [harith]
      exact hedge

end PgRocket

namespace PgRocket

/-- Precondition of a `dfs` call: the gray chain is a stack, the target is a
fresh white carrier node, and (if the stack is nonempty) the target's parent
pointer and an edge connect it to the stack top. -/
def VisitCycPre (g : Graph) (s : DfsState) (t : String) (stack : List String) : Prop :=
  grayStack g s stack ∧ t ∉ stack ∧ s.color t = Color.white ∧ t ∈ dfsCarrier g ∧
  (stack ≠ [] → s.parent t = some (stack.getD (stack.length - 1) "") ∧
    Edge g (stack.getD (stack.length - 1) "") t)

theorem getD_concat_last (l : List String) (a : String) :
    (l ++ [a]).getD l.length "" = a := by
  rw [getD_append_ge l [a] l.length (le_refl _)]
  simp

theorem nodup_length_le_carrier {g : Graph} {C : List String}
    (nd : C.Nodup) (hsub : ∀ x ∈ C, x ∈ dfsCarrier g) :
    C.length ≤ (dfsCarrier g).length :=
  (List.subperm_of_subset nd hsub).length_le

theorem dfsChildren_cyc_sound (g : Graph) {dfsV : String → DfsState → DfsOut}
    {N : Nat} (hN : (dfsCarrier g).length < N)
    (hVtrans : VisitOkSpec dfsV)
    (hVcyc : ∀ t s stack l, VisitCycPre g s t stack → dfsV t s = DfsOut.cyc l →
      IsCycleList g l) :
    ∀ (fks : List ForeignKey) (t : String) (s : DfsState)
      (stack : List String) (l : List String),
      grayStack g s (stack ++ [t]) →
      (∀ fk ∈ fks, fk ∈ g.getChildren t) →
      dfsChildren dfsV N fks t s = DfsOut.cyc l → IsCycleList g l := by
  intro fks
  induction fks with
  | nil =>
    intro t s stack l _ _ h
    simp only [dfsChildren] at h
    exact DfsOut.noConfusion h
  | cons fk rest ih =>
    intro t s stack l hgs hfks h
    obtain ⟨hgiff, hnd, hcar, hlinks⟩ := hgs
    simp only [dfsChildren] at h
    by_cases hself : fk.childTable = t
    · rw [if_pos hself] at h
      exact ih t s stack l ⟨hgiff, hnd, hcar, hlinks⟩
        (fun f2 hf2 => hfks f2 (List.mem_cons_of_mem _ hf2)) h
    · rw [if_neg hself] at h
      have hfk0 : fk ∈ g.getChildren t := hfks fk (List.mem_cons_self fk rest)
      cases hc : s.color fk.childTable with
      | gray =>
        rw [hc] at h
        injection h with h2
        subst h2
        -- the gray node sits strictly below `t` in the chain
        have hwmem : fk.childTable ∈ stack ++ [t] := (hgiff fk.childTable).mp hc
        obtain ⟨j0, hj0, hj0eq⟩ := getD_of_mem hwmem
        have hlen : (stack ++ [t]).length = stack.length + 1 := by simp
        have hlast : (stack ++ [t]).getD ((stack ++ [t]).length - 1) "" = t := by
          rw [hlen]
          simp only [Nat.add_sub_cancel]
          exact getD_concat_last stack t
        have hj0ne : j0 ≠ (stack ++ [t]).length - 1 := by
          intro he
          rw [he, hlast] at hj0eq
          exact hself hj0eq.symm
        have hedge : Edge g ((stack ++ [t]).getD ((stack ++ [t]).length - 1) "")
            ((stack ++ [t]).getD j0 "") := by
          rw [hlast, hj0eq]
          exact ⟨fk, hfk0, rfl, hself⟩
        have hCN : (stack ++ [t]).length ≤ N :=
          le_trans (nodup_length_le_carrier hnd hcar) (le_of_lt hN)
        have := buildCycle_isCycle g s (stack ++ [t]) hlinks hnd N hCN j0
          (by omega) hedge
        rw [hlast, hj0eq] at this
        exact this
      | black =>
        rw [hc] at h
        exact ih t s stack l ⟨hgiff, hnd, hcar, hlinks⟩
          (fun f2 hf2 => hfks f2 (List.mem_cons_of_mem _ hf2)) h
      | white =>
        rw [hc] at h
        have hnotin : fk.childTable ∉ stack ++ [t] := by
          intro hmem
          have := (hgiff fk.childTable).mpr hmem
          rw [hc] at this
          exact Color.noConfusion this
        have hgs2 : grayStack g
            { s with parent := setParent s.parent fk.childTable (some t) }
            (stack ++ [t]) := by
          refine ⟨hgiff, hnd, hcar, ?_⟩
          intro i hi
          have hmem1 : (stack ++ [t]).getD (i + 1) "" ∈ stack ++ [t] :=
            getD_mem _ _ hi
          have hne1 : (stack ++ [t]).getD (i + 1) "" ≠ fk.childTable :=
            fun he => hnotin (he ▸ hmem1)
          have hp := hlinks i hi
          constructor
          · show setParent s.parent fk.childTable (some t)
              ((stack ++ [t]).getD (i + 1) "") = _
            rw [setParent, if_neg hne1]
            exact hp.1
          · exact hp.2
        cases hv : dfsV fk.childTable
            { s with parent := setParent s.parent fk.childTable (some t) } with
        | out => rw [hv] at h; exact DfsOut.noConfusion h
        | cyc c =>
          rw [hv] at h
          have h2 : DfsOut.cyc c = DfsOut.cyc l := h
          injection h2 with h3
          have hlen : (stack ++ [t]).length = stack.length + 1 := by simp
          have hpre : VisitCycPre g
              { s with parent := setParent s.parent fk.childTable (some t) }
              fk.childTable (stack ++ [t]) := by
            refine ⟨hgs2, hnotin, hc, childTarget_mem_carrier hfk0, ?_⟩
            intro _
            constructor
            · show setParent s.parent fk.childTable (some t) fk.childTable = _
              rw [setParent, if_pos rfl, hlen]
              simp only [Nat.add_sub_cancel]
              rw [getD_concat_last]
            · rw [hlen]
              simp only [Nat.add_sub_cancel]
              rw [getD_concat_last]
              exact ⟨fk, hfk0, rfl, hself⟩
          exact h3 ▸ hVcyc fk.childTable _ (stack ++ [t]) c hpre hv
        | ok s3 =>
          rw [hv] at h
          have h3 : dfsChildren dfsV N rest t s3 = DfsOut.cyc l := h
          obtain ⟨V1, V2, V3, V4, V5⟩ := hVtrans fk.childTable
            { s with parent := setParent s.parent fk.childTable (some t) } s3 hc hv
          have hgs3 : grayStack g s3 (stack ++ [t]) := by
            refine ⟨?_, hnd, hcar, ?_⟩
            · intro x
              constructor
              · intro hx
                exact (hgiff x).mp (V5 x hx)
              · intro hx
                have hgray : s.color x = Color.gray := (hgiff x).mpr hx
                have hnw : s.color x ≠ Color.white :=
                  fun hcon => Color.noConfusion (hgray ▸ hcon)
                rw [V2 x hnw]
                exact hgray
            · intro i hi
              have hmem1 : (stack ++ [t]).getD (i + 1) "" ∈ stack ++ [t] :=
                getD_mem _ _ hi
              have hgray1 : s.color ((stack ++ [t]).getD (i + 1) "") = Color.gray :=
                (hgiff _).mpr hmem1
              have hnw1 : s.color ((stack ++ [t]).getD (i + 1) "") ≠ Color.white :=
                fun hcon => Color.noConfusion (hgray1 ▸ hcon)
              obtain ⟨hp1, hp2⟩ := hgs2.2.2.2 i hi
              refine ⟨?_, hp2⟩
              rw [V3 _ hnw1]
              exact hp1
          exact ih t s3 stack l hgs3
            (fun f2 hf2 => hfks f2 (List.mem_cons_of_mem _ hf2)) h3

end PgRocket

namespace PgRocket

theorem dfsVisit_cyc_sound (g : Graph) (N : Nat) (hN : (dfsCarrier g).length < N) :
    ∀ (fuel : Nat) (t : String) (s : DfsState) (stack l : List String),
      VisitCycPre g s t stack → dfsVisit g N fuel t s = DfsOut.cyc l →
      IsCycleList g l := by
  intro fuel
  induction fuel with
  | zero =>
    intro t s stack l _ h
    exact DfsOut.noConfusion h
  | succ f ih =>
    intro t s stack l hpre h
    obtain ⟨⟨hgiff, hnd, hcar, hlinks⟩, hnotin, hwhite, htcar, hlast⟩ := hpre
    have h2 : dfsChildren (fun t2 s2 => dfsVisit g N f t2 s2) N (g.getChildren t) t
        { s with color := setColor s.color t Color.gray } = DfsOut.cyc l := h
    have hnd2 : (stack ++ [t]).Nodup := by
      rw [List.nodup_append]
      exact ⟨hnd, List.nodup_singleton t,
        fun x hx hxt => hnotin ((List.mem_singleton.mp hxt) ▸ hx)⟩
    have hgs1 : grayStack g { s with color := setColor s.color t Color.gray }
        (stack ++ [t]) := by
      refine ⟨?_, hnd2, ?_, ?_⟩
      · intro x
        show setColor s.color t Color.gray x = Color.gray ↔ _
        by_cases hxt : x = t
        · simp [setColor, hxt]
        · rw [setColor, if_neg hxt, List.mem_append]
          rw [hgiff x]
          simp [hxt]
      · intro x hx
        rcases List.mem_append.mp hx with hx1 | hx2
        · exact hcar x hx1
        · rw [List.mem_singleton.mp hx2]
          exact htcar
      · intro i hi
        simp only [List.length_append, List.length_cons, List.length_nil] at hi
        rcases Nat.lt_or_ge (i + 1) stack.length with hi1 | hi2
        · have hp := hlinks i (by omega)
          rw [getD_append_lt stack [t] (i + 1) hi1,
            getD_append_lt stack [t] i (by omega)]
          exact hp
        · have hieq : i + 1 = stack.length := by omega
          have hne : stack ≠ [] := by
            intro hcon
            rw [hcon] at hieq
            simp at hieq
          obtain ⟨hp1, hp2⟩ := hlast hne
          have hg1 : (stack ++ [t]).getD (i + 1) "" = t := by
            rw [hieq, getD_concat_last]
          have hg0 : (stack ++ [t]).getD i "" = stack.getD (stack.length - 1) "" := by
            rw [getD_append_lt stack [t] i (by omega)]
            congr 1
            omega
          rw [hg1, hg0]
          exact ⟨hp1, hp2⟩
    exact dfsChildren_cyc_sound g hN (dfsVisit_ok_trans g N f)
      (fun t2 s2 stack2 l2 hpre2 hv2 => ih t2 s2 stack2 l2 hpre2 hv2)
      (g.getChildren t) t _ stack l hgs1 (fun f2 hf2 => hf2) h2

theorem detectLoop_cyc_sound (g : Graph) (N : Nat)
    (hN : (dfsCarrier g).length < N) :
    ∀ (tbls : List String) (s : DfsState) (l : List String),
      (∀ x, s.color x ≠ Color.gray) → (∀ t2 ∈ tbls, t2 ∈ dfsCarrier g) →
      detectLoop g N tbls s = DfsOut.cyc l → IsCycleList g l := by
  intro tbls
  induction tbls with
  | nil =>
    intro s l _ _ h
    exact DfsOut.noConfusion h
  | cons t rest ih =>
    intro s l hng htbls h
    simp only [detectLoop] at h
    by_cases hw : s.color t = Color.white
    · rw [if_pos hw] at h
      cases hv : dfsVisit g N N t s with
      | ok s2 =>
        rw [hv] at h
        have h2 : detectLoop g N rest s2 = DfsOut.cyc l := h
        have hng2 : ∀ x, s2.color x ≠ Color.gray := by
          intro x hx
          exact hng x (((dfsVisit_ok_trans g N N) t s s2 hw hv).2.2.2.2 x hx)
        exact ih s2 l hng2 (fun u hu => htbls u (List.mem_cons_of_mem _ hu)) h2
      | cyc c =>
        rw [hv] at h
        have h2 : DfsOut.cyc c = DfsOut.cyc l := h
        injection h2 with h3
        refine h3 ▸ dfsVisit_cyc_sound g N hN N t s [] c ⟨?_, ?_, hw,
          htbls t (List.mem_cons_self t rest), ?_⟩ hv
        · refine ⟨?_, List.nodup_nil, ?_, ?_⟩
          · intro x
            simp only [List.not_mem_nil, iff_false]
            exact hng x
          · intro x hx
            simp at hx
          · intro i hi
            simp at hi
        · exact List.not_mem_nil t
        · intro hcon
          exact absurd rfl hcon
      | out => rw [hv] at h; exact DfsOut.noConfusion h
    · rw [if_neg hw] at h
      exact ih s l hng (fun u hu => htbls u (List.mem_cons_of_mem _ hu)) h

end PgRocket

namespace PgRocket

/-- `L` lists nodes in the order the DFS finished them: every edge out of a
listed node leads to a node already black at the start or finished earlier. -/
def FinishList (g : Graph) (s : DfsState) (L : List String) : Prop :=
  ∀ i : Nat, i < L.length → ∀ b, Edge g (L.getD i "") b →
    s.color b = Color.black ∨ ∃ j : Nat, j < i ∧ L.getD j "" = b

theorem finishList_congr (g : Graph) (s s1 : DfsState) (L : List String)
    (h : ∀ b, s1.color b = Color.black ↔ s.color b = Color.black)
    (hf : FinishList g s1 L) : FinishList g s L := by
  intro i hi b he
  rcases hf i hi b he with hb | hj
  · exact Or.inl ((h b).mp hb)
  · exact Or.inr hj

theorem finishList_append (g : Graph) (s s3 : DfsState) (L1 L2 : List String)
    (h1fin : FinishList g s L1)
    (hchar : ∀ x, s3.color x = Color.black ↔ s.color x = Color.black ∨ x ∈ L1)
    (h2fin : FinishList g s3 L2) :
    FinishList g s (L1 ++ L2) := by
  intro i hi b hedge
  rw [List.length_append] at hi
  rcases Nat.lt_or_ge i L1.length with h1 | h2
  · rw [getD_append_lt _ _ _ h1] at hedge
    rcases h1fin i h1 b hedge with hb | ⟨j, hj, hje⟩
    · exact Or.inl hb
    · right
      exact ⟨j, by omega, by rw [getD_append_lt _ _ _ (by omega)]; exact hje⟩
  · rw [getD_append_ge _ _ _ h2] at hedge
    rcases h2fin (i - L1.length) (by omega) b hedge with hb | ⟨j2, hj2, hje⟩
    · rcases (hchar b).mp hb with hsb | hbl1
      · exact Or.inl hsb
      · right
        obtain ⟨j, hj, hje⟩ := getD_of_mem hbl1
        exact ⟨j, by omega, by rw [getD_append_lt _ _ _ hj]; exact hje⟩
    · right
      refine ⟨L1.length + j2, by omega, ?_⟩
      rw [getD_append_ge _ _ _ (by omega)]
      have harith : L1.length + j2 - L1.length = j2 := by omega
      rw [harith]
      exact hje

theorem finishList_concat (g : Graph) (s s' : DfsState) (L : List String)
    (t : String) (hfin : FinishList g s L)
    (hsucc : ∀ b, Edge g t b → s'.color b = Color.black)
    (hchar : ∀ x, s'.color x = Color.black ↔
      s.color x = Color.black ∨ x ∈ L ∨ x = t) :
    FinishList g s (L ++ [t]) := by
  intro i hi b hedge
  rw [List.length_append, List.length_cons, List.length_nil] at hi
  rcases Nat.lt_or_ge i L.length with h1 | h2
  · rw [getD_append_lt _ _ _ h1] at hedge
    rcases hfin i h1 b hedge with hb | ⟨j, hj, hje⟩
    · exact Or.inl hb
    · right
      exact ⟨j, by omega, by rw [getD_append_lt _ _ _ (by omega)]; exact hje⟩
  · have hieq : i = L.length := by omega
    rw [hieq, getD_concat_last] at hedge
    have hb := hsucc b hedge
    rcases (hchar b).mp hb with hsb | hbl | hbt
    · exact Or.inl hsb
    · right
      obtain ⟨j, hj, hje⟩ := getD_of_mem hbl
      exact ⟨j, by omega, by rw [getD_append_lt _ _ _ hj]; exact hje⟩
    · obtain ⟨fk2, hm2, he2, hne2⟩ := hedge
      exact absurd hbt hne2

/-- What a successful `dfs` call on a white node adds: a duplicate-free list
of newly blackened nodes, in finish order. -/
def VisitFinSpec (g : Graph) (dfsV : String → DfsState → DfsOut) : Prop :=
  ∀ t s s', s.color t = Color.white → dfsV t s = DfsOut.ok s' →
    ∃ L : List String, L.Nodup ∧
      (∀ x, s'.color x = Color.black ↔ s.color x = Color.black ∨ x ∈ L) ∧
      (∀ x ∈ L, s.color x ≠ Color.black) ∧ FinishList g s L

theorem dfsChildren_finish (g : Graph) {dfsV : String → DfsState → DfsOut}
    {N : Nat} (hVtrans : VisitOkSpec dfsV) (hVfin : VisitFinSpec g dfsV) :
    ∀ (fks : List ForeignKey) (t : String) (s s' : DfsState),
      s.color t = Color.gray →
      (∀ fk ∈ fks, fk ∈ g.getChildren t) →
      dfsChildren dfsV N fks t s = DfsOut.ok s' →
      ∃ L : List String, (L ++ [t]).Nodup ∧
        (∀ x, s'.color x = Color.black ↔
          s.color x = Color.black ∨ x ∈ L ∨ x = t) ∧
        (∀ x ∈ L ++ [t], s.color x ≠ Color.black) ∧ FinishList g s L ∧
        (∀ fk ∈ fks, fk.childTable ≠ t → s'.color fk.childTable = Color.black) := by
  intro fks
  induction fks with
  | nil =>
    intro t s s' hgray _ h
    simp only [dfsChildren] at h
    injection h with h2
    subst h2
    refine ⟨[], by simp, ?_, ?_, ?_, by simp⟩
    · intro x
      by_cases hxt : x = t
      · simp [setColor, hxt]
      · simp [setColor, hxt]
    · intro x hx
      rw [List.nil_append, List.mem_singleton] at hx
      rw [hx, hgray]
      exact fun hcon => Color.noConfusion hcon
    · intro i hi
      simp at hi
  | cons fk rest ih =>
    intro t s s' hgray hfks h
    simp only [dfsChildren] at h
    by_cases hself : fk.childTable = t
    · rw [if_pos hself] at h
      obtain ⟨L, hnd, hchar, hnb, hfin, hrest⟩ :=
        ih t s s' hgray (fun f2 hf2 => hfks f2 (List.mem_cons_of_mem _ hf2)) h
      refine ⟨L, hnd, hchar, hnb, hfin, ?_⟩
      intro fk2 hfk2 hne2
      rcases List.mem_cons.mp hfk2 with rfl | hfk3
      · exact absurd hself hne2
      · exact hrest fk2 hfk3 hne2
    · rw [if_neg hself] at h
      have hfk0 : fk ∈ g.getChildren t := hfks fk (List.mem_cons_self fk rest)
      cases hc : s.color fk.childTable with
      | gray => rw [hc] at h; exact DfsOut.noConfusion h
      | black =>
        rw [hc] at h
        obtain ⟨L, hnd, hchar, hnb, hfin, hrest⟩ :=
          ih t s s' hgray (fun f2 hf2 => hfks f2 (List.mem_cons_of_mem _ hf2)) h
        refine ⟨L, hnd, hchar, hnb, hfin, ?_⟩
        intro fk2 hfk2 hne2
        rcases List.mem_cons.mp hfk2 with rfl | hfk3
        · exact (hchar fk2.childTable).mpr (Or.inl hc)
        · exact hrest fk2 hfk3 hne2
      | white =>
        rw [hc] at h
        cases hv : dfsV fk.childTable
            { s with parent := setParent s.parent fk.childTable (some t) } with
        | cyc c => rw [hv] at h; exact DfsOut.noConfusion h
        | out => rw [hv] at h; exact DfsOut.noConfusion h
        | ok s3 =>
          rw [hv] at h
          have h3 : dfsChildren dfsV N rest t s3 = DfsOut.ok s' := h
          obtain ⟨V1, V2, V3, V4, V5⟩ := hVtrans fk.childTable
            { s with parent := setParent s.parent fk.childTable (some t) } s3 hc hv
          obtain ⟨L1, h1nd, h1charR, h1nbR, h1finR⟩ := hVfin fk.childTable
            { s with parent := setParent s.parent fk.childTable (some t) } s3 hc hv
          have h1char : ∀ x, s3.color x = Color.black ↔
              s.color x = Color.black ∨ x ∈ L1 := h1charR
          have h1nb : ∀ x ∈ L1, s.color x ≠ Color.black := h1nbR
          have h1fin : FinishList g s L1 := h1finR
          have hgray3 : s3.color t = Color.gray := by
            have hnw : s.color t ≠ Color.white :=
              fun hcon => Color.noConfusion (hgray ▸ hcon)
            rw [V2 t hnw]
            exact hgray
          obtain ⟨L2, h2nd, h2char, h2nb, h2fin, h2rest⟩ :=
            ih t s3 s' hgray3 (fun f2 hf2 => hfks f2 (List.mem_cons_of_mem _ hf2)) h3
          refine ⟨L1 ++ L2, ?_, ?_, ?_, ?_, ?_⟩
          · rw [List.append_assoc, List.nodup_append]
            refine ⟨h1nd, h2nd, ?_⟩
            intro a ha1 ha2
            exact h2nb a ha2 ((h1char a).mpr (Or.inr ha1))
          · intro x
            rw [h2char x, h1char x, List.mem_append]
            tauto
          · intro x hx
            rw [List.append_assoc, List.mem_append] at hx
            rcases hx with hx1 | hx2
            · exact h1nb x hx1
            · intro hcon
              exact h2nb x hx2 ((h1char x).mpr (Or.inl hcon))
          · exact finishList_append g s s3 L1 L2 h1fin h1char h2fin
          · intro fk2 hfk2 hne2
            rcases List.mem_cons.mp hfk2 with rfl | hfk3
            · exact (h2char fk2.childTable).mpr (Or.inl V4)
            · exact h2rest fk2 hfk3 hne2

theorem dfsVisit_finish (g : Graph) (N : Nat) :
    ∀ fuel : Nat, VisitFinSpec g (fun t2 s2 => dfsVisit g N fuel t2 s2) := by
  intro fuel
  induction fuel with
  | zero =>
    intro t s s' _ h
    exact DfsOut.noConfusion h
  | succ f ih =>
    intro t s s' hw h
    have h2 : dfsChildren (fun t2 s2 => dfsVisit g N f t2 s2) N (g.getChildren t) t
        { s with color := setColor s.color t Color.gray } = DfsOut.ok s' := h
    have hg1 : ({ s with color := setColor s.color t Color.gray } :
        DfsState).color t = Color.gray := by simp [setColor]
    obtain ⟨L, hnd, hchar, hnb, hfin, hsuccs⟩ :=
      dfsChildren_finish g (dfsVisit_ok_trans g N f) ih (g.getChildren t) t _ s'
        hg1 (fun f2 hf2 => hf2) h2
    have hbiff : ∀ b, ({ s with color := setColor s.color t Color.gray } :
        DfsState).color b = Color.black ↔ s.color b = Color.black := by
      intro b
      by_cases hbt : b = t
      · subst hbt
        simp [setColor, hw]
      · simp [setColor, hbt]
    refine ⟨L ++ [t], hnd, ?_, ?_, ?_⟩
    · intro x
      rw [hchar x, hbiff x, List.mem_append, List.mem_singleton]
    · intro x hx
      intro hcon
      exact hnb x hx ((hbiff x).mpr hcon)
    · refine finishList_concat g s s' L t
        (finishList_congr g s _ L hbiff hfin) ?_ ?_
      · intro b hedge
        obtain ⟨fk2, hm2, he2, hne2⟩ := hedge
        have := hsuccs fk2 hm2 (by rw [he2]; exact hne2)
        rw [he2] at this
        exact this
      · intro x
        rw [hchar x, hbiff x]

theorem detectLoop_finish (g : Graph) (N : Nat) :
    ∀ (tbls : List String) (s s' : DfsState),
      detectLoop g N tbls s = DfsOut.ok s' →
      ∃ L : List String, L.Nodup ∧
        (∀ x, s'.color x = Color.black ↔ s.color x = Color.black ∨ x ∈ L) ∧
        (∀ x ∈ L, s.color x ≠ Color.black) ∧ FinishList g s L ∧
        (∀ t ∈ tbls, s'.color t ≠ Color.white) ∧
        (∀ x, s'.color x = Color.gray → s.color x = Color.gray) ∧
        (∀ x, s'.color x = Color.white → s.color x = Color.white) := by
  intro tbls
  induction tbls with
  | nil =>
    intro s s' h
    injection h with h2
    subst h2
    refine ⟨[], by simp, by simp, by simp, ?_, by simp, fun x hx => hx, fun x hx => hx⟩
    intro i hi
    simp at hi
  | cons t rest ih =>
    intro s s' h
    simp only [detectLoop] at h
    by_cases hw : s.color t = Color.white
    · rw [if_pos hw] at h
      cases hv : dfsVisit g N N t s with
      | cyc c => rw [hv] at h; exact DfsOut.noConfusion h
      | out => rw [hv] at h; exact DfsOut.noConfusion h
      | ok s2 =>
        rw [hv] at h
        have h2 : detectLoop g N rest s2 = DfsOut.ok s' := h
        obtain ⟨V1, V2, V3, V4, V5⟩ := (dfsVisit_ok_trans g N N) t s s2 hw hv
        obtain ⟨L1, h1nd, h1char, h1nb, h1fin⟩ := (dfsVisit_finish g N N) t s s2 hw hv
        obtain ⟨L2, h2nd, h2char, h2nb, h2fin, h2tbls, h2gray, h2white⟩ := ih s2 s' h2
        refine ⟨L1 ++ L2, ?_, ?_, ?_, ?_, ?_, ?_, ?_⟩
        · rw [List.nodup_append]
          refine ⟨h1nd, h2nd, ?_⟩
          intro a ha1 ha2
          exact h2nb a ha2 ((h1char a).mpr (Or.inr ha1))
        · intro x
          rw [h2char x, h1char x, List.mem_append]
          tauto
        · intro x hx
          rcases List.mem_append.mp hx with hx1 | hx2
          · exact h1nb x hx1
          · intro hcon
            exact h2nb x hx2 ((h1char x).mpr (Or.inl hcon))
        · exact finishList_append g s s2 L1 L2 h1fin h1char h2fin
        · intro u hu
          rcases List.mem_cons.mp hu with rfl | hu2
          · have hb : s'.color u = Color.black :=
              (h2char u).mpr (Or.inl V4)
            rw [hb]
            exact fun hcon => Color.noConfusion hcon
          · exact h2tbls u hu2
        · intro x hx
          exact V5 x (h2gray x hx)
        · intro x hx
          exact V1 x (h2white x hx)
    · rw [if_neg hw] at h
      obtain ⟨L, hnd, hchar, hnb, hfin, htbls, hgray, hwhite⟩ := ih s s' h
      refine ⟨L, hnd, hchar, hnb, hfin, ?_, hgray, hwhite⟩
      intro u hu
      rcases List.mem_cons.mp hu with rfl | hu2
      · intro hcon
        exact hw (hwhite u hcon)
      · exact htbls u hu2

end PgRocket

namespace PgRocket

theorem detect_cyc_is_cycle (g : Graph) :
    ∀ l, detectMultiTableCycles g = DetectResult.cycle l → IsCycleList g l := by
  intro l h
  unfold detectMultiTableCycles at h
  cases hdl : detectLoop g ((dfsCarrier g).length + 1) (allTablesSorted g)
      ⟨fun _ => Color.white, fun _ => none⟩ with
  | ok s' => rw [hdl] at h; exact DetectResult.noConfusion h
  | out => rw [hdl] at h; exact DetectResult.noConfusion h
  | cyc c =>
    rw [hdl] at h
    have h2 : DetectResult.cycle c = DetectResult.cycle l := h
    injection h2 with h3
    refine h3 ▸ detectLoop_cyc_sound g ((dfsCarrier g).length + 1) (by omega)
      (allTablesSorted g) _ c ?_ ?_ hdl
    · intro x hx
      exact Color.noConfusion hx
    · intro t2 ht2
      exact allTables_mem_carrier ht2

theorem detect_no_fuelOut (g : Graph) :
    detectMultiTableCycles g ≠ DetectResult.fuelOut := by
  intro h
  unfold detectMultiTableCycles at h
  cases hdl : detectLoop g ((dfsCarrier g).length + 1) (allTablesSorted g)
      ⟨fun _ => Color.white, fun _ => none⟩ with
  | ok s' => rw [hdl] at h; exact DetectResult.noConfusion h
  | cyc c => rw [hdl] at h; exact DetectResult.noConfusion h
  | out =>
    exact detectLoop_no_out g (allTablesSorted g) _
      (fun t ht => allTables_mem_carrier ht) hdl

theorem detect_ok_no_cycle (g : Graph)
    (h : detectMultiTableCycles g = DetectResult.ok) :
    ∀ l, ¬ IsCycleList g l := by
  intro l hcyc
  obtain ⟨hlen3, hheadlast, hnddrop, hedges⟩ := hcyc
  unfold detectMultiTableCycles at h
  cases hdl : detectLoop g ((dfsCarrier g).length + 1) (allTablesSorted g)
      ⟨fun _ => Color.white, fun _ => none⟩ with
  | cyc c => rw [hdl] at h; exact DetectResult.noConfusion h
  | out => rw [hdl] at h; exact DetectResult.noConfusion h
  | ok s' =>
    obtain ⟨L, hnd, hchar, hnb, hfin, htbls, hgray, hwhite⟩ :=
      detectLoop_finish g ((dfsCarrier g).length + 1) (allTablesSorted g) _ s' hdl
    have hmemL : ∀ a b, Edge g a b → a ∈ L := by
      intro a b he
      have hat : a ∈ allTablesSorted g := mem_allTables_of_edge he
      have hnw : s'.color a ≠ Color.white := htbls a hat
      have hng : s'.color a ≠ Color.gray := by
        intro hcon
        exact Color.noConfusion (hgray a hcon)
      have hb : s'.color a = Color.black := by
        cases hca : s'.color a with
        | white => exact absurd hca hnw
        | gray => exact absurd hca hng
        | black => rfl
      rcases (hchar a).mp hb with hb0 | hbL
      · exact Color.noConfusion hb0
      · exact hbL
    have hfin2 : ∀ i : Nat, i < L.length → ∀ b, Edge g (L.getD i "") b →
        ∃ j : Nat, j < i ∧ L.getD j "" = b := by
      intro i hi b he
      rcases hfin i hi b he with hb | hj
      · exact absurd hb (fun hcon => Color.noConfusion hcon)
      · exact hj
    have h0' : l.head? = some (l.getD 0 "") := by
      rw [List.head?_eq_getElem?, List.getElem?_eq_getElem (by omega : 0 < l.length)]
      rw [List.getD_eq_getElem l "" (by omega : 0 < l.length)]
    have hN' : l.getLast? = some (l.getD (l.length - 1) "") := by
      rw [List.getLast?_eq_getElem?,
        List.getElem?_eq_getElem (by omega : l.length - 1 < l.length)]
      rw [List.getD_eq_getElem l "" (by omega : l.length - 1 < l.length)]
    rw [h0', hN'] at hheadlast
    injection hheadlast with hl0
    have main : ∀ k : Nat, k < l.length → ∀ p0 pk : Nat,
        p0 < L.length → pk < L.length →
        L.getD p0 "" = l.getD 0 "" → L.getD pk "" = l.getD k "" → pk + k ≤ p0 := by
      intro k
      induction k with
      | zero =>
        intro _ p0 pk hp0 hpk he0 hek
        have := getD_inj_nodup hnd hp0 hpk (by rw [he0, hek])
        omega
      | succ k2 ihk =>
        intro hk p0 pk hp0 hpk he0 hek
        have hedge := hedges k2 hk
        obtain ⟨pk2, hpk2, hek2⟩ := getD_of_mem (hmemL _ _ hedge)
        have hih := ihk (by omega) p0 pk2 hp0 hpk2 he0 hek2
        obtain ⟨j, hjlt, hje⟩ :=
          hfin2 pk2 hpk2 (l.getD (k2 + 1) "") (by rw [hek2]; exact hedge)
        have hjpk : j = pk := getD_inj_nodup hnd (by omega) hpk (by rw [hje, hek])
        omega
    obtain ⟨p0, hp0, he0⟩ := getD_of_mem (hmemL _ _ (hedges 0 (by omega)))
    have hlastD : L.getD p0 "" = l.getD (l.length - 1) "" := by rw [he0, hl0]
    have := main (l.length - 1) (by omega) p0 p0 hp0 hp0 he0 hlastD
    omega

end PgRocket

namespace PgRocket

/-- Two-table FK cycle `a → b`, `b → a`. -/
def gC6 : Graph :=
  ⟨[], [("a", [⟨"b", "a_id", "a", "id"⟩]), ("b", [⟨"a", "b_id", "b", "id"⟩])], []⟩

/-- A graph whose only cycle is a self-referential FK. -/
def gC6self : Graph :=
  ⟨[], [("a", [⟨"a", "parent_id", "a", "id"⟩])], []⟩

/-- C6: `DetectMultiTableCycles` succeeds iff the foreign-key graph has no
multi-table cycle (self-loop FKs are skipped); when it fails, the reported
path is a genuine cycle: it is closed (first table repeated at the end),
visits at least two distinct tables, repeats no interior table, and every
consecutive pair is connected by a non-self child FK — i.e. the error names
every table on the cycle in order of traversal.  The fuel-exhaustion outcome
of the embedding never occurs. -/
theorem detectMultiTableCycles_correct (g : Graph) :
    (detectMultiTableCycles g = DetectResult.ok ↔ ∀ l, ¬ IsCycleList g l) ∧
    (∀ l, detectMultiTableCycles g = DetectResult.cycle l → IsCycleList g l) ∧
    detectMultiTableCycles g ≠ DetectResult.fuelOut := by
  refine ⟨⟨fun h => detect_ok_no_cycle g h, ?_⟩, detect_cyc_is_cycle g,
    detect_no_fuelOut g⟩
  intro hno
  cases hd : detectMultiTableCycles g with
  | ok => rfl
  | cycle l => exact absurd (detect_cyc_is_cycle g l hd) (hno l)
  | fuelOut => exact absurd hd (detect_no_fuelOut g)

/-- C6 witness: the two-table cycle `a → b → a` is rejected with the path
`[a, b, a]` naming both tables (shown to be a genuine cycle by the theorem),
while the self-loop-only graph is accepted, which by the theorem means it
has no multi-table cycle. -/
theorem detectMultiTableCycles_correct_witness :
    detectMultiTableCycles gC6 = DetectResult.cycle ["a", "b", "a"] ∧
    IsCycleList gC6 ["a", "b", "a"] ∧
    detectMultiTableCycles gC6self = DetectResult.ok ∧
    (∀ l, ¬ IsCycleList gC6self l) :=
  ⟨by rfl,
   (detectMultiTableCycles_correct gC6).2.1 ["a", "b", "a"] (by rfl),
   by rfl,
   (detectMultiTableCycles_correct gC6self).1.mp (by rfl)⟩

end PgRocket
